import Mathlib

/-!
# Verification of the smart-goal-generator coercion and planning layer

Shallow embedding of the JSON-coercion, evaluation-plan, goal-normalization,
row-reformatting, model-capability and data-fetch logic of the repository
(`lab_helpers/smartgoalgenerator_runtime.py`,
`lab_helpers/smartgoalgenerator_mcp_tools.py`,
`lab_helpers/smartgoalgenerator_model_util.py`).

Strings manipulated by the coercion layer are modelled as `List Char`.
Python's `json` module is modelled by an executable JSON value type `JVal`
(numbers restricted to integers), a serializer `renderV` following
`json.dumps` with its default separators `", "` / `": "`, and a recursive
descent `jsonLoads` following `json.loads` on that fragment (strings support
the `\"` and `\\` escapes; literal control characters are rejected as
`json.loads` does in strict mode).
-/

/-- The six ASCII characters matched by Python's regex `\s` (the embedding
does not model non-ASCII whitespace). -/
def isReSpace (c : Char) : Bool :=
  c = ' ' || c = '\t' || c = '\n' || c = '\r' || c = '\x0b' || c = '\x0c'

/-- Characters stripped by Python's `str.strip()` (ASCII fragment). -/
def isPySpace (c : Char) : Bool := isReSpace c

/-- JSON whitespace accepted between tokens by `json.loads`. -/
def isJsonWs (c : Char) : Bool :=
  c = ' ' || c = '\t' || c = '\n' || c = '\r'

/-- Python `s.strip()`: drop whitespace from both ends. -/
def pyStrip (s : List Char) : List Char :=
  ((s.dropWhile isPySpace).reverse.dropWhile isPySpace).reverse

/-- Is this a closing brace or bracket (the group `([}\]])` of the regex in
`clean_json_str`)? -/
def isCloser (c : Char) : Bool := c = '}' || c = ']'

/-- Attempt to match `\s*([}\]])` at the head of `s`: returns the closer and
the remainder after it setting up one replacement step of
`re.sub(r",\s*([}\]])", r"\1", s)`. -/
def matchWsCloser (s : List Char) : Option (Char × List Char) :=
  match s.dropWhile isReSpace with
  | [] => none
  | c :: r => if isCloser c then some (c, r) else none

/-- Scanner for `re.sub(r",\s*([}\]])", r"\1", s)`, processed one character
at a time so the recursion is structural. The state `none` is the normal
scan; `some acc` means a `,` was read and `acc` holds (reversed) the
whitespace read since. On a closer the pending `,` and whitespace are
dropped (one replacement); on any other character the pending text is
emitted verbatim and scanning resumes at that character, exactly the
left-to-right non-overlapping behaviour of `re.sub`. -/
def subTCAux : Option (List Char) → List Char → List Char
  | none, [] => []
  | none, c :: rest =>
    if c = ',' then subTCAux (some []) rest else c :: subTCAux none rest
  | some acc, [] => ',' :: acc.reverse
  | some acc, c :: rest =>
    if isReSpace c then subTCAux (some (c :: acc)) rest
    else if isCloser c then c :: subTCAux none rest
    else
      ',' :: (acc.reverse ++
        (if c = ',' then subTCAux (some []) rest else c :: subTCAux none rest))

/-- Left-to-right, non-overlapping replacement of `,\s*([}\]])` by the closer,
exactly as `re.sub(r",\s*([}\]])", r"\1", s)` in `clean_json_str`
(`smartgoalgenerator_runtime.py` lines 114-121). -/
def subTrailingComma (s : List Char) : List Char := subTCAux none s

/-- The prefix of `s` ending at the last `}` or `]` in `s` (inclusive), or
`none` when `s` has neither: models `s[:last_brace+1]` with
`last_brace = max(s.rfind("}"), s.rfind("]"))`. -/
def upToLastCloser : List Char → Option (List Char)
  | [] => none
  | c :: rest =>
    match upToLastCloser rest with
    | some t => some (c :: t)
    | none => if isCloser c then some [c] else none

/-- `clean_json_str` (`smartgoalgenerator_runtime.py` lines 114-121): remove
trailing commas before `}` / `]`, then truncate after the final closing
brace/bracket (no truncation when there is none, i.e. `last_brace == -1`). -/
def cleanJsonStr (s : List Char) : List Char :=
  let s1 := subTrailingComma s
  match upToLastCloser s1 with
  | some t => t
  | none => s1

/-- The prefix of `s` ending at the last `}` in `s`, or `none` when `s`
contains no `}`. Used to model the greedy regex `\{.*\}`. -/
def upToLastRB : List Char → Option (List Char)
  | [] => none
  | c :: rest =>
    match upToLastRB rest with
    | some t => some (c :: t)
    | none => if c = '}' then some [c] else none

/-- `re.search(r"\{.*\}", s, flags=re.DOTALL)`: the leftmost match of the
greedy brace pattern, i.e. the substring from the first `{` that is followed
by some `}`, up to the last `}` of the string. -/
def searchBrace : List Char → Option (List Char)
  | [] => none
  | c :: rest =>
    if c = '{' then
      match upToLastRB rest with
      | some t => some (c :: t)
      | none => searchBrace rest
    else searchBrace rest

mutual
/-- JSON values (`json` module fragment: numbers restricted to integers,
strings as raw character lists). -/
inductive JVal where
  | jnull : JVal
  | jbool : Bool → JVal
  | jnum : Int → JVal
  | jstr : List Char → JVal
  | jarr : JArr → JVal
  | jobj : JObj → JVal
deriving DecidableEq

/-- A JSON array: list of JSON values. -/
inductive JArr where
  | nil : JArr
  | cons : JVal → JArr → JArr
deriving DecidableEq

/-- A JSON object: insertion-ordered key/value pairs (as produced by
`json.loads`, duplicate keys aside). -/
inductive JObj where
  | nil : JObj
  | cons : List Char → JVal → JObj → JObj
deriving DecidableEq
end

/-- The character for decimal digit `d`. -/
def digitChar (d : Nat) : Char := Char.ofNat (48 + d)

/-- Decimal digits of `n`, most significant first, via fuel so that the
definition reduces in the kernel. -/
def natToCharsAux : Nat → Nat → List Char → List Char
  | 0, _, acc => acc
  | fuel + 1, n, acc =>
    if n < 10 then digitChar n :: acc
    else natToCharsAux fuel (n / 10) (digitChar (n % 10) :: acc)

/-- Decimal representation of a natural number, e.g. `['4','2']` for 42. -/
def natToChars (n : Nat) : List Char := natToCharsAux (n + 1) n []

/-- Decimal representation of an integer as emitted by `json.dumps`. -/
def renderInt (n : Int) : List Char :=
  if n < 0 then '-' :: natToChars n.natAbs else natToChars n.toNat

/-- String-body serialization of `json.dumps` (fragment): escape `"` and `\`,
all other characters verbatim. -/
def renderStrChars : List Char → List Char
  | [] => []
  | c :: rest =>
    if c = '"' || c = '\\' then '\\' :: c :: renderStrChars rest
    else c :: renderStrChars rest

/-!
Functions recursing over the mutual `JVal`/`JArr`/`JObj` types use
structural recursion (`termination_by structural`) so that they reduce
inside the kernel, letting concrete counterexamples and witnesses be
checked by `decide`/`rfl`. Array and object bodies are rendered as
already-joined element lists (`", "` between elements, none leading),
matching `json.dumps` output with its default separators.
-/

mutual
/-- `json.dumps` with the default separators `", "` and `": "` on the
modelled JSON fragment. -/
def renderV : JVal → List Char
  | .jnull => ['n', 'u', 'l', 'l']
  | .jbool b => if b then ['t', 'r', 'u', 'e'] else ['f', 'a', 'l', 's', 'e']
  | .jnum n => renderInt n
  | .jstr s => '"' :: (renderStrChars s ++ ['"'])
  | .jarr xs => '[' :: (renderElems xs ++ [']'])
  | .jobj fs => '{' :: (renderMembers fs ++ ['}'])
termination_by structural v => v

/-- The `", "`-joined rendering of array elements (no leading separator). -/
def renderElems : JArr → List Char
  | .nil => []
  | .cons v t =>
    renderV v ++ (match t with | .nil => [] | .cons _ _ => ',' :: ' ' :: renderElems t)
termination_by structural xs => xs

/-- The `", "`-joined rendering of object members `"key": value` (no leading
separator). -/
def renderMembers : JObj → List Char
  | .nil => []
  | .cons k v t =>
    ('"' :: (renderStrChars k ++ '"' :: ':' :: ' ' :: renderV v)) ++
      (match t with | .nil => [] | .cons _ _ _ => ',' :: ' ' :: renderMembers t)
termination_by structural fs => fs
end

/-- Skip JSON inter-token whitespace. -/
def skipWs (s : List Char) : List Char := s.dropWhile isJsonWs

/-- Value of a decimal digit character. -/
def digitVal (c : Char) : Nat := c.toNat - 48

/-- Parse a nonempty run of decimal digits. -/
def parseNatChars (s : List Char) : Option (Nat × List Char) :=
  match s.takeWhile Char.isDigit with
  | [] => none
  | ds => some (ds.foldl (fun a c => a * 10 + digitVal c) 0, s.dropWhile Char.isDigit)

/-- Parse the body of a JSON string after the opening quote, handling the
`\"` and `\\` escapes and rejecting raw control characters (as `json.loads`
does in its default strict mode). -/
def parseStrRest : List Char → Option (List Char × List Char)
  | [] => none
  | c :: r =>
    if c = '"' then some ([], r)
    else if c = '\\' then
      match r with
      | [] => none
      | c2 :: r2 =>
        if c2 = '"' || c2 = '\\' then
          match parseStrRest r2 with
          | some (cs, r3) => some (c2 :: cs, r3)
          | none => none
        else none
    else if c.toNat < 32 then none
    else
      match parseStrRest r with
      | some (cs, r2) => some (c :: cs, r2)
      | none => none

/-- Match an expected literal tail (e.g. `ull` after `n`). -/
def dropLit : List Char → List Char → Option (List Char)
  | [], s => some s
  | _ :: _, [] => none
  | c :: t, x :: s => if x = c then dropLit t s else none

/-- Parse modes of the JSON scanner: a value, a nonempty array-element
sequence (terminated by `]`), or a nonempty object-member sequence
(terminated by `}`). -/
inductive PMode where
  | val : PMode
  | elems : PMode
  | members : PMode

/-- Results of the JSON scanner, tagged by mode. -/
inductive PRes where
  | rv : JVal → PRes
  | ra : JArr → PRes
  | ro : JObj → PRes

/-- Recursive-descent JSON scanner modelling `json.loads` on the fragment of
`JVal`. A single fuel-indexed function (all recursive calls decrease the
fuel) so that it reduces inside the kernel; dispatch is on the first
non-whitespace character, as in the `json` module scanner. -/
def parseF : Nat → PMode → List Char → Option (PRes × List Char)
  | 0, _, _ => none
  | fuel + 1, .val, s =>
    match skipWs s with
    | [] => none
    | c :: r =>
      if c = '{' then
        match skipWs r with
        | [] => none
        | c2 :: r2 =>
          if c2 = '}' then some (.rv (.jobj .nil), r2)
          else
            match parseF fuel .members (c2 :: r2) with
            | some (.ro fs, r3) => some (.rv (.jobj fs), r3)
            | _ => none
      else if c = '[' then
        match skipWs r with
        | [] => none
        | c2 :: r2 =>
          if c2 = ']' then some (.rv (.jarr .nil), r2)
          else
            match parseF fuel .elems (c2 :: r2) with
            | some (.ra xs, r3) => some (.rv (.jarr xs), r3)
            | _ => none
      else if c = '"' then
        match parseStrRest r with
        | some (cs, r2) => some (.rv (.jstr cs), r2)
        | none => none
      else if c = '-' then
        match parseNatChars r with
        | some (m, r2) => some (.rv (.jnum (-(m : Int))), r2)
        | none => none
      else if c.isDigit then
        match parseNatChars (c :: r) with
        | some (m, r2) => some (.rv (.jnum (m : Int)), r2)
        | none => none
      else if c = 'n' then
        match dropLit ['u', 'l', 'l'] r with
        | some r2 => some (.rv .jnull, r2)
        | none => none
      else if c = 't' then
        match dropLit ['r', 'u', 'e'] r with
        | some r2 => some (.rv (.jbool true), r2)
        | none => none
      else if c = 'f' then
        match dropLit ['a', 'l', 's', 'e'] r with
        | some r2 => some (.rv (.jbool false), r2)
        | none => none
      else none
  | fuel + 1, .elems, s =>
    match parseF fuel .val s with
    | some (.rv v, r) =>
      (match skipWs r with
       | [] => none
       | c :: r2 =>
         if c = ',' then
           match parseF fuel .elems r2 with
           | some (.ra xs, r3) => some (.ra (.cons v xs), r3)
           | _ => none
         else if c = ']' then some (.ra (.cons v .nil), r2)
         else none)
    | _ => none
  | fuel + 1, .members, s =>
    match skipWs s with
    | [] => none
    | c :: r =>
      if c = '"' then
        match parseStrRest r with
        | some (k, r1) =>
          (match skipWs r1 with
           | [] => none
           | c2 :: r2 =>
             if c2 = ':' then
               match parseF fuel .val r2 with
               | some (.rv v, r3) =>
                 (match skipWs r3 with
                  | [] => none
                  | c3 :: r4 =>
                    if c3 = ',' then
                      match parseF fuel .members r4 with
                      | some (.ro fs, r5) => some (.ro (.cons k v fs), r5)
                      | _ => none
                    else if c3 = '}' then some (.ro (.cons k v .nil), r4)
                    else none)
               | _ => none
             else none)
        | none => none
      else none

/-- `json.loads`: parse one JSON value and require only whitespace after it
(otherwise `loads` raises "Extra data"). -/
def jsonLoads (s : List Char) : Option JVal :=
  match parseF (s.length + 1) .val s with
  | some (.rv v, rest) => if skipWs rest = [] then some v else none
  | _ => none

/-- Failure modes of `_coerce_json`: `extraction` models the
`ValueError("No JSON object found in agent output.")` (the spec's
`JsonExtractionError`), `parse` models the re-raised `json.JSONDecodeError`
(the spec's `JsonParseError`), carrying the offending candidate text. -/
inductive CoerceError where
  | extraction : CoerceError
  | parse : List Char → CoerceError
deriving DecidableEq

instance {ε α : Type} [DecidableEq ε] [DecidableEq α] : DecidableEq (Except ε α) := fun a b =>
  match a, b with
  | .ok x, .ok y =>
    if h : x = y then isTrue (by rw [h]) else isFalse (by simp [h])
  | .error x, .error y =>
    if h : x = y then isTrue (by rw [h]) else isFalse (by simp [h])
  | .ok _, .error _ => isFalse (by simp)
  | .error _, .ok _ => isFalse (by simp)

/-- `_coerce_json` (`smartgoalgenerator_runtime.py` lines 124-151) on string
input (the accessor extraction for non-string inputs resolves to a string
before this logic runs): strip; use the whole string when it starts with `{`
and ends with `}`, otherwise search for the greedy `\{.*\}` match; repair the
candidate with `clean_json_str`; parse with `json.loads`.
`startsEndsBrace` is the `s.startswith("{") and s.endswith("}")` test. -/
def startsEndsBrace (t : List Char) : Bool :=
  t.head? = some '{' && t.getLast? = some '}'

def coerceJson (s : List Char) : Except CoerceError JVal :=
  let t := pyStrip s
  match (if startsEndsBrace t then some t else searchBrace t) with
  | none => .error .extraction
  | some cand =>
    match jsonLoads (cleanJsonStr cand) with
    | some v => .ok v
    | none => .error (.parse (cleanJsonStr cand))

/-! ## Python value stringification (for the goal normalizer fallback) -/

/-- Python truthiness of a parsed-JSON value (`None`, `False`, `0`, `""`,
`[]`, `{}` are falsy). -/
def truthy : JVal → Bool
  | .jnull => false
  | .jbool b => b
  | .jnum n => n != 0
  | .jstr s => s != []
  | .jarr .nil => false
  | .jarr (.cons _ _) => true
  | .jobj .nil => false
  | .jobj (.cons _ _ _) => true

/-- A single quote character (for Python `repr` of strings). -/
def squote : Char := Char.ofNat 39

/-- A lowercase hexadecimal digit. -/
def hexDigit (d : Nat) : Char :=
  if d < 10 then Char.ofNat (48 + d) else Char.ofNat (87 + d)

/-- CPython `repr` escaping of one character inside a string delimited by
quote `q`: the backslash and the delimiter are backslash-escaped, newline /
carriage return / tab use their named escapes, other control characters
(code < 32, and DEL 127) become `\xhh`; everything else is verbatim. -/
def reprEscChar (q c : Char) : List Char :=
  if c = '\\' || c = q then ['\\', c]
  else if c = '\n' then ['\\', 'n']
  else if c = '\r' then ['\\', 'r']
  else if c = '\t' then ['\\', 't']
  else if c.toNat < 32 || c.toNat = 127 then
    ['\\', 'x', hexDigit (c.toNat / 16), hexDigit (c.toNat % 16)]
  else [c]

/-- CPython `repr` quote choice for a string: single quotes, except when the
string contains a single quote and no double quote (then double quotes). -/
def reprQuote (s : List Char) : Char :=
  if s.elem squote && !(s.elem '"') then '"' else squote

/-- The escaped body of a string under quote `q`. -/
def reprBody (q : Char) : List Char → List Char
  | [] => []
  | c :: rest => reprEscChar q c ++ reprBody q rest

/-- CPython `repr` of a string (for the printable-or-ASCII-control
fragment): quote choice, then the escaped body between the quotes. -/
def pyReprStr (s : List Char) : List Char :=
  reprQuote s :: (reprBody (reprQuote s) s ++ [reprQuote s])

/-- `dict.get`: the value bound to `key` (last binding wins, matching the
duplicate-key behaviour of `json.loads`). -/
def jobjGet : JObj → List Char → Option JVal
  | .nil, _ => none
  | .cons k v t, key =>
    match jobjGet t key with
    | some r => some r
    | none => if k = key then some v else none

mutual
/-- Python `repr` of a parsed-JSON value: `None` / `True` / `False`,
decimal integers, single-quoted strings, `[...]` lists and `{'k': v}` dicts
with `", "` separators. -/
def pyRepr : JVal → List Char
  | .jnull => ['N', 'o', 'n', 'e']
  | .jbool b =>
    if b then ['T', 'r', 'u', 'e'] else ['F', 'a', 'l', 's', 'e']
  | .jnum n => renderInt n
  | .jstr s => pyReprStr s
  | .jarr xs => '[' :: (pyReprElems xs ++ [']'])
  | .jobj fs => '{' :: (pyReprMembers fs ++ ['}'])
termination_by structural v => v

/-- `", "`-joined list elements in `repr` form. -/
def pyReprElems : JArr → List Char
  | .nil => []
  | .cons v t =>
    pyRepr v ++ (match t with | .nil => [] | .cons _ _ => ',' :: ' ' :: pyReprElems t)
termination_by structural xs => xs

/-- `", "`-joined dict members `'key': value` in `repr` form. -/
def pyReprMembers : JObj → List Char
  | .nil => []
  | .cons k v t =>
    (pyReprStr k ++ ':' :: ' ' :: pyRepr v) ++
      (match t with | .nil => [] | .cons _ _ _ => ',' :: ' ' :: pyReprMembers t)
termination_by structural fs => fs
end

/-- Python `str()` of a parsed-JSON value: the string itself for strings,
`repr` otherwise. -/
def pyStrTop : JVal → List Char
  | .jstr s => s
  | v => pyRepr v

/-! ## Goal normalizer (`invoke`, `smartgoalgenerator_runtime.py` 362-374) -/

/-- A normalized goal `{goal_number, description}`. -/
structure NormGoal where
  goal_number : Nat
  description : List Char
deriving DecidableEq

/-- `goal.get(key)` followed by Python `or` chaining: a missing key or a
falsy value both fall through. -/
def getTruthy (fs : JObj) (key : List Char) : Option JVal :=
  match jobjGet fs key with
  | some v => if truthy v then some v else none
  | none => none

/-- `desc = goal.get("description") or goal.get("goal") or str(goal)` for a
dict, `desc = str(goal)` otherwise. Returns `none` when the Python code
would raise `AttributeError` at `desc.strip()` (a truthy non-string value
under the `description`/`goal` key). -/
def extractDesc : JVal → Option (List Char)
  | .jobj fs =>
    (match (getTruthy fs ['d','e','s','c','r','i','p','t','i','o','n']).orElse
        (fun _ => getTruthy fs ['g','o','a','l']) with
     | some (.jstr s) => some s
     | some _ => none
     | none => some (pyStrTop (.jobj fs)))
  | v => some (pyStrTop v)

/-- The normalization loop: `goal_number` is the 1-based enumeration index,
`description` is the extracted text stripped of surrounding whitespace.
Returns `none` when any element makes the Python loop raise. -/
def normalizeFrom (idx : Nat) : List JVal → Option (List NormGoal)
  | [] => some []
  | g :: t =>
    match extractDesc g with
    | some d =>
      match normalizeFrom (idx + 1) t with
      | some out => some (⟨idx, pyStrip d⟩ :: out)
      | none => none
    | none => none

/-- Normalize a raw goal sequence (`for idx, goal in enumerate(goals_data,
start=1)`). -/
def normalizeGoals (goals : List JVal) : Option (List NormGoal) :=
  normalizeFrom 1 goals

/-! ## Row reformatting (`_format_rows_as_lines`, mcp_tools.py 108-117) -/

/-- Python `str.split(sep)` for a single-character separator: empty pieces
are kept, `"".split(d) = [""]`. -/
def pySplitOn (d : Char) : List Char → List (List Char)
  | [] => [[]]
  | c :: rest =>
    match pySplitOn d rest with
    | [] => [[]]
    | h :: t => if c = d then [] :: h :: t else (c :: h) :: t

/-- `_format_rows_as_lines`: strip the text; if it contains the `'@'` row
delimiter, split on it, strip each chunk, drop empty chunks and rejoin with
newlines; otherwise return the stripped text. -/
def formatRowsAsLines (text : List Char) : List Char :=
  let t := pyStrip text
  if t.contains '@' then
    List.intercalate ['\n'] (((pySplitOn '@' t).map pyStrip).filter (fun c => c ≠ []))
  else t

/-! ## Capability classifier (`smartgoalgenerator_model_util.py` 21-36) -/

/-- The static denylist of `model_supports_system_prompt`. -/
def spDenylist : List String := ["mistral.mistral-7b-instruct-v0:2"]

/-- `model_supports_system_prompt`: membership check, default supported. -/
def modelSupportsSystemPrompt (model_id : String) : Bool :=
  !(spDenylist.contains model_id)

/-- The static denylist of `model_supports_tools`. -/
def toolsDenylist : List String :=
  ["mistral.mistral-7b-instruct-v0:2", "meta.llama3-70b-instruct-v1:0"]

/-- `model_supports_tools`: membership check, default supported. -/
def modelSupportsTools (model_id : String) : Bool :=
  !(toolsDenylist.contains model_id)

/-! ## Run loading and evaluation plan building (mcp_tools.py 150-191) -/

/-- One analyzer goal record as persisted in an `AnalyzerRun`. -/
structure SmartGoal where
  goal_number : Nat
  description : String
deriving DecidableEq

/-- One analyzer run record (`output_obj` of the analyzer runtime); a
missing `timestamp` key is modelled with `none` (`r.get("timestamp", "")`
then yields `""`). -/
structure RunRec where
  model_id : String
  data_source : String
  timestamp : Option String
  smart_goals : List SmartGoal
deriving DecidableEq

/-- The sort key `r.get("timestamp", "")`. -/
def tsKey (r : RunRec) : String := r.timestamp.getD ""

/-- Lexicographic (code-point) string comparison, Python's `<=` on `str`. -/
def charsLe : List Char → List Char → Bool
  | [], _ => true
  | _ :: _, [] => false
  | a :: as2, b :: bs2 =>
    if a < b then true else if b < a then false else charsLe as2 bs2

/-- Comparison used by `runs.sort(key=lambda r: r.get("timestamp", ""))`. -/
def leTs (a b : RunRec) : Prop := charsLe (tsKey a).data (tsKey b).data = true

instance : DecidableRel leTs := fun _ _ => inferInstanceAs (Decidable (_ = true))

/-- Python `l[-k:]` (tail slice with a possibly non-positive index). -/
def pySliceLast (l : List RunRec) (k : Int) : List RunRec :=
  if 0 < k then l.drop (l.length - k.toNat) else l.drop (-k).toNat

/-- `load_analyzer_runs_v2` (mcp_tools.py 150-161): sort the given run
collection by timestamp ascending (stable, as Python's `list.sort`;
`List.insertionSort` is likewise stable) and, when `limit` is truthy
(present and nonzero), keep `runs[-limit:]`. Returns the run list (the
`{"runs": ...}` wrapper is dropped). -/
def loadAnalyzerRunsV2 (runs : List RunRec) (limit : Option Int) : List RunRec :=
  let sorted := List.insertionSort leTs runs
  match limit with
  | some k => if k ≠ 0 then pySliceLast sorted k else sorted
  | none => sorted

/-- The evaluation plan returned by `build_eval_plan_v2`. -/
structure EvalPlan where
  evaluation_type : String
  metrics : List String
  rubric : List (String × String)
  cases : List RunRec
deriving DecidableEq

/-- `build_eval_plan_v2` (mcp_tools.py 164-191): always the
`smart_goals_rubric` plan with the fixed six-metric rubric; `cases` is the
loaded run collection passed through unchanged (the flattening helper
`_build_smart_goal_cases_v2` is commented out; the `evaluation_type =
"none"` fallback after the `return` is unreachable and therefore absent
here). -/
def buildEvalPlanV2 (runs : List RunRec) (limit : Option Int) : EvalPlan :=
  { evaluation_type := "smart_goals_rubric"
    metrics := ["specific", "measurable", "achievable", "relevant", "time_bound", "clarity"]
    rubric :=
      [("specific", "Clearly states the behavior/target (who/what/when/where)."),
       ("measurable", "Includes a quantifiable criterion (count, frequency, value)."),
       ("achievable", "Feasible for the patient (resources/constraints)."),
       ("relevant", "Aligned to diabetes/health needs in the notes."),
       ("time_bound", "Contains a concrete timeframe or deadline."),
       ("clarity", "Readable, unambiguous, free of contradictions.")]
    cases := loadAnalyzerRunsV2 runs limit }

/-! ## Document fetcher (`fetch_data`, mcp_tools.py 282-355) -/

/-- External effects of `fetch_data`, passed explicitly: S3 object read plus
text extraction, HTTP GET, local file existence/read (with extraction for
pdf/docx), and the `_save_formatted_to_file` log append. Each fallible
operation returns `Except` with the exception text. -/
structure FetchEnv where
  s3Read : String → Except String String
  httpGet : String → Except String String
  fileExists : String → Bool
  fileRead : String → Except String String
  logWrite : String → Except String Unit

/-- The structured result of `fetch_data` (`meta` fields inlined). -/
structure FetchResult where
  error : Option String
  raw_text : String
  formatted_text : String
  source_type : String
  data_source : String
deriving DecidableEq

/-- `_format_rows_as_lines` on `String`. -/
def formatRowsStr (s : String) : String := String.mk (formatRowsAsLines s.data)

/-- Python `s.lower().startswith(p)` for an already-lowercase literal `p`. -/
def lowerStartsWith (s : String) (p : String) : Bool :=
  (dropLit p.data (s.data.map Char.toLower)).isSome

/-- `fetch_data` (mcp_tools.py 282-355). The outer `Except` models an
exception escaping the function: the only such exit is a failing
`_save_formatted_to_file` call, which sits outside the `try` blocks on the
S3 and URL paths. All fetch failures are returned as `.ok` results carrying
an `error` field. -/
def fetchData (env : FetchEnv) (data_source : Option String) : Except String FetchResult :=
  let ds : Option String :=
    match data_source with
    | none => none
    | some s => if s = "" then none else some s
  match ds with
  | none =>
    .ok ⟨some "No data_source provided.", "", "", "unknown", "None"⟩
  | some s =>
    if lowerStartsWith s "s3://" then
      match env.s3Read s with
      | .error e => .ok ⟨some ("S3 error: " ++ e), "", "", "s3", s⟩
      | .ok raw =>
        let fm := formatRowsStr raw
        match env.logWrite fm with
        | .error e => .error e
        | .ok _ => .ok ⟨none, raw, fm, "s3", s⟩
    else if lowerStartsWith s "http://" || lowerStartsWith s "https://" then
      match env.httpGet s with
      | .error e => .ok ⟨some ("HTTP error: " ++ e), "", "", "url", s⟩
      | .ok raw =>
        let fm := formatRowsStr raw
        match env.logWrite fm with
        | .error e => .error e
        | .ok _ => .ok ⟨none, raw, fm, "url", s⟩
    else if env.fileExists s then
      match env.fileRead s with
      | .error e => .ok ⟨some ("File read error: " ++ e), "", "", "file", s⟩
      | .ok raw => .ok ⟨none, raw, formatRowsStr raw, "file", s⟩
    else
      .ok ⟨some ("Unsupported data_source: " ++ s), "", "", "unknown", s⟩

/-! ### Predicates for the serialize/re-coerce round trip -/

/-- Does `s` contain a match of the repair regex `,\s*([}\]])`? -/
def hasTC : List Char → Bool
  | [] => false
  | c :: rest => (c = ',' && (matchWsCloser rest).isSome) || hasTC rest

/-- Well-behaved string content for the serialize/re-coerce round trip:
printable ASCII, and no substring matching `,\s*([}\]])` (which
`clean_json_str` would corrupt inside a string literal). -/
def strOKchars (cs : List Char) : Bool :=
  cs.all (fun c => 32 ≤ c.toNat && c.toNat ≤ 126) && !(hasTC cs)

mutual
/-- All string literals (keys and values) of the value are well-behaved in
the sense of `strOKchars`. -/
def strsOKv : JVal → Bool
  | .jnull => true
  | .jbool _ => true
  | .jnum _ => true
  | .jstr s => strOKchars s
  | .jarr xs => strsOKelems xs
  | .jobj fs => strsOKmembers fs
termination_by structural v => v

/-- `strsOKv` over array elements. -/
def strsOKelems : JArr → Bool
  | .nil => true
  | .cons v t => strsOKv v && strsOKelems t
termination_by structural xs => xs

/-- `strsOKv` over object members. -/
def strsOKmembers : JObj → Bool
  | .nil => true
  | .cons k v t => strOKchars k && strsOKv v && strsOKmembers t
termination_by structural fs => fs
end

mutual
/-- Structural size of a value, a lower bound for the parser fuel. -/
def sizeV : JVal → Nat
  | .jnull => 1
  | .jbool _ => 1
  | .jnum _ => 1
  | .jstr _ => 1
  | .jarr xs => 1 + sizeElems xs
  | .jobj fs => 1 + sizeMembers fs
termination_by structural v => v

/-- Size over array elements. -/
def sizeElems : JArr → Nat
  | .nil => 0
  | .cons v t => 1 + sizeV v + sizeElems t
termination_by structural xs => xs

/-- Size over object members. -/
def sizeMembers : JObj → Nat
  | .nil => 0
  | .cons k v t => 1 + sizeV v + sizeMembers t
termination_by structural fs => fs
end

/-- The list ends in a comma followed only by whitespace (the shapes after
which a following closer would complete a `,\s*([}\]])` match across an
append boundary). -/
def tailCommaWs (a : List Char) : Prop :=
  ∃ u w, a = u ++ ',' :: w ∧ ∀ c ∈ w, isReSpace c = true

/-- No character of `rest` is a decimal digit at its head (so a rendered
number followed by `rest` parses back exactly). -/
def headNotDigit (rest : List Char) : Prop :=
  ∀ c, rest.head? = some c → c.isDigit = false

/-- `TCIns s t`: `t` is `s` with trailing commas inserted — a `,` followed
by optional whitespace added immediately before occurrences of a closing
`\x7d` / `]` (the tolerance `clean_json_str`'s repair regex `,\s*([}\]])`
is there to undo). -/
inductive TCIns : List Char → List Char → Prop where
  | nil : TCIns [] []
  | copy (c : Char) (s t : List Char) : TCIns s t → TCIns (c :: s) (c :: t)
  | ins (w : List Char) (c : Char) (s t : List Char) :
      isCloser c = true → (∀ x ∈ w, isReSpace x = true) →
      TCIns (c :: s) (c :: t) → TCIns (c :: s) (',' :: (w ++ c :: t))

/-! ## Theorems -/

/-! ### Sorting facts for the run loader -/

theorem charsLe_total : ∀ x y : List Char, charsLe x y = true ∨ charsLe y x = true
  | [], _ => by left; rfl
  | _ :: _, [] => by right; rfl
  | a :: as2, b :: bs2 => by
    by_cases hab : a < b
    · left; simp [charsLe, hab]
    · by_cases hba : b < a
      · right; simp [charsLe, hba, hab]
      · have h := charsLe_total as2 bs2
        rcases h with h | h
        · left; simp [charsLe, hab, hba, h]
        · right; simp [charsLe, hba, hab, h]

theorem charsLe_trans :
    ∀ x y z : List Char, charsLe x y = true → charsLe y z = true → charsLe x z = true
  | [], _, _, _, _ => rfl
  | a :: as2, [], _, hxy, _ => by simp [charsLe] at hxy
  | a :: as2, b :: bs2, [], _, hyz => by simp [charsLe] at hyz
  | a :: as2, b :: bs2, c :: cs2, hxy, hyz => by
    simp only [charsLe] at hxy hyz ⊢
    by_cases hab : a < b <;> by_cases hbc : b < c
    · have hac : a < c := lt_trans hab hbc
      simp [hac]
    · simp only [hbc, if_false] at hyz
      by_cases hcb : c < b
      · simp [hcb] at hyz
      · have hbc2 : b = c := le_antisymm (not_lt.mp hcb) (not_lt.mp hbc)
        subst hbc2
        simp [hab]
    · simp only [hab, if_false] at hxy
      by_cases hba : b < a
      · simp [hba] at hxy
      · have hab2 : a = b := le_antisymm (not_lt.mp hba) (not_lt.mp hab)
        subst hab2
        simp [hbc]
    · simp only [hab, if_false] at hxy
      simp only [hbc, if_false] at hyz
      by_cases hba : b < a
      · simp [hba] at hxy
      · by_cases hcb : c < b
        · simp [hcb] at hyz
        · have hab2 : a = b := le_antisymm (not_lt.mp hba) (not_lt.mp hab)
          have hbc2 : b = c := le_antisymm (not_lt.mp hcb) (not_lt.mp hbc)
          subst hab2; subst hbc2
          simp only [lt_irrefl, if_false] at hxy hyz ⊢
          exact charsLe_trans as2 bs2 cs2 hxy hyz

instance : IsTotal RunRec leTs :=
  ⟨fun a b => charsLe_total (tsKey a).data (tsKey b).data⟩

instance : IsTrans RunRec leTs :=
  ⟨fun a b c => charsLe_trans (tsKey a).data (tsKey b).data (tsKey c).data⟩

theorem loadAnalyzerRunsV2_none (runs : List RunRec) :
    loadAnalyzerRunsV2 runs none = List.insertionSort leTs runs := rfl

theorem loadAnalyzerRunsV2_some (runs : List RunRec) (k : Int) :
    loadAnalyzerRunsV2 runs (some k) =
      if k ≠ 0 then pySliceLast (List.insertionSort leTs runs) k
      else List.insertionSort leTs runs := rfl

theorem mem_of_mem_loadAnalyzerRunsV2 {runs : List RunRec} {limit : Option Int}
    {c : RunRec} (h : c ∈ loadAnalyzerRunsV2 runs limit) : c ∈ runs := by
  have hs : ∀ x : RunRec, x ∈ List.insertionSort leTs runs → x ∈ runs := by
    intro x hx
    exact (List.mem_insertionSort leTs).mp hx
  cases limit with
  | none => exact hs c (loadAnalyzerRunsV2_none runs ▸ h)
  | some k =>
    rw [loadAnalyzerRunsV2_some] at h
    by_cases hk : k ≠ 0
    · rw [if_pos hk] at h
      unfold pySliceLast at h
      by_cases hpos : 0 < k
      · rw [if_pos hpos] at h
        exact hs c (List.drop_subset _ _ h)
      · rw [if_neg hpos] at h
        exact hs c (List.drop_subset _ _ h)
    · rw [if_neg hk] at h
      exact hs c h

/-- C2: for every run collection and limit, `build_eval_plan_v2` emits
`evaluation_type = "smart_goals_rubric"`, exactly the six-metric list
`[specific, measurable, achievable, relevant, time_bound, clarity]` in that
order, and passes the (sorted, limit-truncated) run collection through
directly as `cases` — every case is one of the input runs, with no
flattening of nested `smart_goals` into per-goal cases. -/
theorem c2_build_eval_plan (runs : List RunRec) (limit : Option Int) :
    (buildEvalPlanV2 runs limit).evaluation_type = "smart_goals_rubric" ∧
    (buildEvalPlanV2 runs limit).metrics =
      ["specific", "measurable", "achievable", "relevant", "time_bound", "clarity"] ∧
    (buildEvalPlanV2 runs limit).cases = loadAnalyzerRunsV2 runs limit ∧
    ∀ c ∈ (buildEvalPlanV2 runs limit).cases, c ∈ runs := by
  refine ⟨rfl, rfl, rfl, ?_⟩
  intro c hc
  exact mem_of_mem_loadAnalyzerRunsV2 hc

/-- C10: a limit of `0` is falsy in Python, so the `if limit:` guard skips
the tail slice: every run of the sorted collection is kept, and the result
is a permutation of the input of the same length. -/
theorem c10_limit_zero_ignored (runs : List RunRec) :
    loadAnalyzerRunsV2 runs (some 0) = List.insertionSort leTs runs ∧
    (loadAnalyzerRunsV2 runs (some 0)).length = runs.length ∧
    List.Perm (loadAnalyzerRunsV2 runs (some 0)) runs := by
  have h : loadAnalyzerRunsV2 runs (some 0) = List.insertionSort leTs runs := by
    simp [loadAnalyzerRunsV2]
  refine ⟨h, ?_, ?_⟩
  · rw [h]; exact List.length_insertionSort _ _
  · rw [h]; exact List.perm_insertionSort _ _

/-- C3: for a positive limit, the run loader sorts ascending by the
timestamp string under lexicographic comparison and keeps exactly the last
`limit` entries of the sorted sequence: the output is sorted, is a suffix of
the sorted collection, has length `min limit n`, and draws only from the
input runs. -/
theorem c3_sort_then_tail (runs : List RunRec) (k : Int) (hk : 0 < k) :
    List.Sorted leTs (loadAnalyzerRunsV2 runs (some k)) ∧
    (loadAnalyzerRunsV2 runs (some k)) <:+ List.insertionSort leTs runs ∧
    (loadAnalyzerRunsV2 runs (some k)).length = min k.toNat runs.length ∧
    ∀ c ∈ loadAnalyzerRunsV2 runs (some k), c ∈ runs := by
  have hne : k ≠ 0 := by omega
  have heq : loadAnalyzerRunsV2 runs (some k) =
      (List.insertionSort leTs runs).drop
        ((List.insertionSort leTs runs).length - k.toNat) := by
    simp [loadAnalyzerRunsV2, pySliceLast, hne, hk]
  refine ⟨?_, ?_, ?_, ?_⟩
  · rw [heq]
    exact (List.sorted_insertionSort leTs runs).sublist (List.drop_sublist _ _)
  · rw [heq]
    exact List.drop_suffix _ _
  · rw [heq]
    have hlen : (List.insertionSort leTs runs).length = runs.length :=
      List.length_insertionSort _ _
    rw [List.length_drop, hlen]
    have hk2 : 0 < k.toNat := by omega
    omega
  · intro c hc
    exact mem_of_mem_loadAnalyzerRunsV2 hc

/-- Witness for C3 at the spec's Scenario D: two runs with timestamps
`2024-01-02 ...` and `2024-01-01 ...` and `limit = 1`; only the lexically
later run is kept. -/
theorem c3_witness :
    (0 : Int) < 1 ∧
    (List.Sorted leTs (loadAnalyzerRunsV2
        [RunRec.mk "m1" "d1" (some "2024-01-02 10:00:00") [],
         RunRec.mk "m2" "d2" (some "2024-01-01 09:00:00") []] (some 1)) ∧
      (loadAnalyzerRunsV2
        [RunRec.mk "m1" "d1" (some "2024-01-02 10:00:00") [],
         RunRec.mk "m2" "d2" (some "2024-01-01 09:00:00") []] (some 1)) <:+
        List.insertionSort leTs
          [RunRec.mk "m1" "d1" (some "2024-01-02 10:00:00") [],
           RunRec.mk "m2" "d2" (some "2024-01-01 09:00:00") []] ∧
      (loadAnalyzerRunsV2
        [RunRec.mk "m1" "d1" (some "2024-01-02 10:00:00") [],
         RunRec.mk "m2" "d2" (some "2024-01-01 09:00:00") []] (some 1)).length =
        min (1 : Int).toNat
          ([RunRec.mk "m1" "d1" (some "2024-01-02 10:00:00") [],
            RunRec.mk "m2" "d2" (some "2024-01-01 09:00:00") []] :
              List RunRec).length ∧
      ∀ c ∈ loadAnalyzerRunsV2
        [RunRec.mk "m1" "d1" (some "2024-01-02 10:00:00") [],
         RunRec.mk "m2" "d2" (some "2024-01-01 09:00:00") []] (some 1),
        c ∈ [RunRec.mk "m1" "d1" (some "2024-01-02 10:00:00") [],
             RunRec.mk "m2" "d2" (some "2024-01-01 09:00:00") []]) ∧
    loadAnalyzerRunsV2
      [RunRec.mk "m1" "d1" (some "2024-01-02 10:00:00") [],
       RunRec.mk "m2" "d2" (some "2024-01-01 09:00:00") []] (some 1) =
      [RunRec.mk "m1" "d1" (some "2024-01-02 10:00:00") []] :=
  ⟨by decide, c3_sort_then_tail _ 1 (by decide), by decide⟩

/-- C8: the capability classifiers return `false` exactly on their static
denylists and `true` (supported) for every other model identifier. -/
theorem c8_denylist_membership (model_id : String) :
    (modelSupportsSystemPrompt model_id = false ↔ model_id ∈ spDenylist) ∧
    (modelSupportsTools model_id = false ↔ model_id ∈ toolsDenylist) := by
  constructor
  · simp [modelSupportsSystemPrompt, List.contains]
  · simp [modelSupportsTools, List.contains]

/-! ### Row reformatting (C7) -/

theorem mem_dropWhile_iff {p : Char → Bool} {c : Char} (hc : p c = false) :
    ∀ s : List Char, c ∈ s.dropWhile p ↔ c ∈ s := by
  intro s
  induction s with
  | nil => simp
  | cons a t ih =>
    by_cases ha : p a = true
    · rw [List.dropWhile_cons_of_pos ha]
      rw [ih]
      constructor
      · intro h; exact List.mem_cons_of_mem a h
      · intro h
        rcases List.mem_cons.mp h with h | h
        · subst h; rw [hc] at ha; cases ha
        · exact h
    · rw [List.dropWhile_cons_of_neg ha]

theorem mem_pyStrip_iff {c : Char} (hc : isPySpace c = false) (s : List Char) :
    c ∈ pyStrip s ↔ c ∈ s := by
  unfold pyStrip
  rw [List.mem_reverse, mem_dropWhile_iff hc, List.mem_reverse, mem_dropWhile_iff hc]

/-- Counterexample to C7 as stated: on input `" a "` (no delimiter), the
formatter does not pass the text through unchanged — it strips the
surrounding whitespace. -/
theorem c7_counterexample :
    formatRowsAsLines (" a ").data = ("a").data ∧
    ("a").data ≠ (" a ").data := by
  constructor
  · decide
  · decide

/-- C7 (amended): if the text contains the `'@'` row delimiter (equivalently,
its stripped form does), the step splits the stripped text on `'@'`, strips
each piece, drops empty pieces, and rejoins with newlines; if the text does
not contain the delimiter, the stripped text passes through. -/
theorem c7_row_reformat (text : List Char) :
    ((pyStrip text).contains '@' = text.contains '@') ∧
    (text.contains '@' = true →
      formatRowsAsLines text =
        List.intercalate ['\n']
          (((pySplitOn '@' (pyStrip text)).map pyStrip).filter (fun c => c ≠ []))) ∧
    (text.contains '@' = false → formatRowsAsLines text = pyStrip text) := by
  have hmem : (pyStrip text).contains '@' = text.contains '@' := by
    have h := @mem_pyStrip_iff '@' (by decide) text
    by_cases hin : '@' ∈ text
    · have h2 : '@' ∈ pyStrip text := h.mpr hin
      rw [List.contains, List.contains, List.elem_iff.mpr hin, List.elem_iff.mpr h2]
    · have h2 : '@' ∉ pyStrip text := fun hx => hin (h.mp hx)
      have e1 : (pyStrip text).elem '@' = false := by
        by_contra hb
        exact h2 (List.elem_iff.mp (eq_true_of_ne_false hb))
      have e2 : text.elem '@' = false := by
        by_contra hb
        exact hin (List.elem_iff.mp (eq_true_of_ne_false hb))
      rw [List.contains, List.contains, e1, e2]
  refine ⟨hmem, ?_, ?_⟩
  · intro h
    show (if (pyStrip text).contains '@' then _ else _) = _
    rw [hmem, h]
    simp
  · intro h
    show (if (pyStrip text).contains '@' then _ else _) = _
    rw [hmem, h]
    simp

/-! ### Goal normalizer (C4) -/

theorem normalizeFrom_spec :
    ∀ (goals : List JVal) (idx : Nat) (out : List NormGoal),
      normalizeFrom idx goals = some out →
      out.length = goals.length ∧
      ∀ i (h1 : i < out.length) (h2 : i < goals.length),
        (out.get ⟨i, h1⟩).goal_number = idx + i ∧
        some (out.get ⟨i, h1⟩).description =
          (extractDesc (goals.get ⟨i, h2⟩)).map pyStrip := by
  intro goals
  induction goals with
  | nil =>
    intro idx out h
    simp only [normalizeFrom] at h
    cases h
    exact ⟨rfl, fun i h1 _ => absurd h1 (by simp)⟩
  | cons g t ih =>
    intro idx out h
    simp only [normalizeFrom] at h
    cases hE : extractDesc g with
    | none => rw [hE] at h; cases h
    | some d =>
      rw [hE] at h
      cases hN : normalizeFrom (idx + 1) t with
      | none => rw [hN] at h; cases h
      | some out2 =>
        rw [hN] at h
        cases h
        have hrec := ih (idx + 1) out2 hN
        refine ⟨by simpa using hrec.1, ?_⟩
        intro i h1 h2
        cases i with
        | zero =>
          refine ⟨by simp, ?_⟩
          rw [show (g :: t).get ⟨0, h2⟩ = g from rfl, hE]
          rfl
        | succ j =>
          have h1b : j < out2.length := by simpa using h1
          have h2b : j < t.length := by simpa using h2
          have := hrec.2 j h1b h2b
          refine ⟨?_, ?_⟩
          · have := this.1
            simpa [Nat.add_assoc, Nat.add_comm 1 j] using this
          · exact this.2

theorem normalizeFrom_total :
    ∀ (goals : List JVal) (idx : Nat), (∀ g ∈ goals, extractDesc g ≠ none) →
      ∃ out, normalizeFrom idx goals = some out := by
  intro goals
  induction goals with
  | nil => intro idx _; exact ⟨[], rfl⟩
  | cons g t ih =>
    intro idx hok
    cases hE : extractDesc g with
    | none => exact absurd hE (hok g (List.mem_cons_self g t))
    | some d =>
      obtain ⟨out2, h2⟩ := ih (idx + 1) (fun x hx => hok x (List.mem_cons_of_mem g hx))
      exact ⟨⟨idx, pyStrip d⟩ :: out2, by simp only [normalizeFrom, hE, h2]⟩

/-- C4: for every raw goal sequence in which each dict element's truthy
`description`/`goal` value is a string (so that `desc.strip()` does not
raise `AttributeError` — formalised as `extractDesc g ≠ none`), the
normalizer completes, the output has the same length, the i-th output goal
carries `goal_number = i` (numbering 1-based, irrespective of any numeric
identifier in the input element), and its description is the extracted text
(`description` key, else `goal` key, else the stringified element —
Python's falsy-aware `or` chain — else the string itself) with surrounding
whitespace stripped. -/
theorem c4_normalizer (goals : List JVal)
    (hok : ∀ g ∈ goals, extractDesc g ≠ none) :
    ∃ out : List NormGoal, normalizeGoals goals = some out ∧
      out.length = goals.length ∧
      ∀ i (h1 : i < out.length) (h2 : i < goals.length),
        (out.get ⟨i, h1⟩).goal_number = i + 1 ∧
        some (out.get ⟨i, h1⟩).description =
          (extractDesc (goals.get ⟨i, h2⟩)).map pyStrip := by
  obtain ⟨out, hout⟩ := normalizeFrom_total goals 1 hok
  have hs := normalizeFrom_spec goals 1 out hout
  refine ⟨out, hout, hs.1, ?_⟩
  intro i h1 h2
  have := hs.2 i h1 h2
  exact ⟨by rw [this.1]; omega, this.2⟩

/-- C4 counterexample: a dict element whose truthy `description` value is
not a string (`\x7b"description": 5\x7d`) makes the Python loop raise
`AttributeError` at `desc.strip()` (modelled as `none`), so no output
sequence is produced at all — against the original claim, which promises a
same-length output for every dict-or-string element. -/
theorem c4_counterexample :
    normalizeGoals [JVal.jobj (.cons ("description").data (.jnum 5) .nil)] =
      none := rfl

/-- Witness for C4: an element with an embedded `goal_number` of 5 is
renumbered to its position, descriptions come from `description`/`goal`
keys or the raw string, and whitespace is stripped. -/
theorem c4_witness :
    (∀ g ∈ [JVal.jobj (.cons ("goal_number").data (.jnum 5)
         (.cons ("description").data (.jstr (" Walk 30 min/day ").data) .nil)),
       JVal.jstr ("Drink water").data,
       JVal.jobj (.cons ("goal").data (.jstr ("Sleep 8h").data) .nil)],
      extractDesc g ≠ none) ∧
    ∃ out : List NormGoal,
      normalizeGoals
        [JVal.jobj (.cons ("goal_number").data (.jnum 5)
           (.cons ("description").data (.jstr (" Walk 30 min/day ").data) .nil)),
         JVal.jstr ("Drink water").data,
         JVal.jobj (.cons ("goal").data (.jstr ("Sleep 8h").data) .nil)] = some out ∧
      out.length = 3 ∧
      ∀ i (h1 : i < out.length) (h2 : i < 3),
        (out.get ⟨i, h1⟩).goal_number = i + 1 ∧
        some (out.get ⟨i, h1⟩).description =
          (extractDesc (([JVal.jobj (.cons ("goal_number").data (.jnum 5)
             (.cons ("description").data (.jstr (" Walk 30 min/day ").data) .nil)),
           JVal.jstr ("Drink water").data,
           JVal.jobj (.cons ("goal").data (.jstr ("Sleep 8h").data) .nil)]).get
            ⟨i, h2⟩)).map pyStrip :=
  ⟨by decide,
   c4_normalizer
     [JVal.jobj (.cons ("goal_number").data (.jnum 5)
        (.cons ("description").data (.jstr (" Walk 30 min/day ").data) .nil)),
      JVal.jstr ("Drink water").data,
      JVal.jobj (.cons ("goal").data (.jstr ("Sleep 8h").data) .nil)]
     (by decide)⟩

/-! ### JSON extraction failure (C5) -/

theorem upToLastRB_eq_none : ∀ s : List Char, upToLastRB s = none ↔ '}' ∉ s := by
  intro s
  induction s with
  | nil => simp [upToLastRB]
  | cons c rest ih =>
    constructor
    · intro h
      simp only [upToLastRB] at h
      cases he : upToLastRB rest with
      | some t => rw [he] at h; cases h
      | none =>
        rw [he] at h
        by_cases hc : c = '}'
        · rw [if_pos hc] at h; cases h
        · intro hmem
          rcases List.mem_cons.mp hmem with h1 | h1
          · exact hc h1.symm
          · exact (ih.mp he) h1
    · intro h
      have h1 : '}' ∉ rest := fun hx => h (List.mem_cons_of_mem _ hx)
      have h2 : c ≠ '}' := fun hx => h (hx ▸ List.mem_cons_self _ _)
      simp only [upToLastRB]
      rw [ih.mpr h1]
      rw [if_neg h2]

theorem searchBrace_none_of_no_rb : ∀ s : List Char, '}' ∉ s → searchBrace s = none := by
  intro s
  induction s with
  | nil => intro _; rfl
  | cons c rest ih =>
    intro h
    have h1 : '}' ∉ rest := fun hx => h (List.mem_cons_of_mem _ hx)
    simp only [searchBrace]
    by_cases hc : c = '{'
    · rw [if_pos hc, (upToLastRB_eq_none rest).mpr h1]
      exact ih h1
    · rw [if_neg hc]
      exact ih h1

theorem searchBrace_eq_none_iff :
    ∀ s : List Char,
      searchBrace s = none ↔ ¬∃ a m b : List Char, s = a ++ '{' :: (m ++ '}' :: b) := by
  intro s
  induction s with
  | nil =>
    constructor
    · rintro - ⟨a, m, b, hab⟩
      cases a <;> simp at hab
    · intro _; rfl
  | cons c rest ih =>
    by_cases hc : c = '{'
    · subst hc
      cases he : upToLastRB rest with
      | some t =>
        have hmem : '}' ∈ rest := by
          by_contra hmm
          rw [(upToLastRB_eq_none rest).mpr hmm] at he
          cases he
        obtain ⟨m, b, hmb⟩ := List.append_of_mem hmem
        constructor
        · intro h
          simp only [searchBrace, he, if_pos] at h
          cases h
        · intro hno
          exact absurd ⟨[], m, b, by rw [hmb]; simp⟩ hno
      | none =>
        have hnr : '}' ∉ rest := (upToLastRB_eq_none rest).mp he
        have heq : searchBrace ('{' :: rest) = searchBrace rest := by
          simp only [searchBrace, he, if_pos]
        rw [heq, searchBrace_none_of_no_rb rest hnr]
        constructor
        · rintro - ⟨a, m, b, hab⟩
          cases a with
          | nil =>
            simp only [List.nil_append, List.cons.injEq] at hab
            exact hnr (hab.2 ▸ List.mem_append_right m (List.mem_cons_self _ _))
          | cons c2 a2 =>
            simp only [List.cons_append, List.cons.injEq] at hab
            exact hnr (hab.2 ▸
              List.mem_append_right a2
                (List.mem_cons_of_mem _ (List.mem_append_right m (List.mem_cons_self _ _))))
        · intro _; rfl
    · have heq : searchBrace (c :: rest) = searchBrace rest := by
        simp only [searchBrace, if_neg hc]
      rw [heq, ih]
      constructor
      · rintro hno ⟨a, m, b, hab⟩
        cases a with
        | nil =>
          simp only [List.nil_append, List.cons.injEq] at hab
          exact hc hab.1
        | cons c2 a2 =>
          simp only [List.cons_append, List.cons.injEq] at hab
          exact hno ⟨a2, m, b, hab.2⟩
      · rintro hno ⟨a, m, b, hab⟩
        exact hno ⟨c :: a, m, b, by rw [hab]; rfl⟩

theorem startsEndsBrace_iff (t : List Char) :
    startsEndsBrace t = true ↔ (t.head? = some '{' ∧ t.getLast? = some '}') := by
  simp [startsEndsBrace]

/-- C5: `_coerce_json` fails with its extraction error (the spec's
`JsonExtractionError`) exactly when, after stripping, the input neither both
starts with `{` and ends with `}` nor contains any substring of the form
`{...}` (a `{` with a later `}`); in particular the brace-free input
`"I could not find any goals."` fails that way. -/
theorem c5_extraction_error_iff :
    (∀ s : List Char,
      coerceJson s = .error .extraction ↔
        ¬(((pyStrip s).head? = some '{' ∧ (pyStrip s).getLast? = some '}') ∨
          ∃ a m b : List Char, pyStrip s = a ++ '{' :: (m ++ '}' :: b))) ∧
    coerceJson ("I could not find any goals.").data = .error .extraction := by
  constructor
  · intro s
    by_cases hb : startsEndsBrace (pyStrip s) = true
    · have hcond : (pyStrip s).head? = some '{' ∧ (pyStrip s).getLast? = some '}' :=
        (startsEndsBrace_iff _).mp hb
      have heq : coerceJson s =
          match jsonLoads (cleanJsonStr (pyStrip s)) with
          | some v => .ok v
          | none => .error (.parse (cleanJsonStr (pyStrip s))) := by
        show (match (if startsEndsBrace (pyStrip s) then some (pyStrip s)
                     else searchBrace (pyStrip s)) with
              | none => (.error .extraction : Except CoerceError JVal)
              | some cand =>
                match jsonLoads (cleanJsonStr cand) with
                | some v => .ok v
                | none => .error (.parse (cleanJsonStr cand))) = _
        rw [if_pos hb]
      rw [heq]
      cases hj : jsonLoads (cleanJsonStr (pyStrip s)) with
      | some v =>
        constructor
        · intro h; cases h
        · intro hno; exact absurd (Or.inl hcond) hno
      | none =>
        constructor
        · intro h; cases h
        · intro hno; exact absurd (Or.inl hcond) hno
    · have heq : coerceJson s =
          match searchBrace (pyStrip s) with
          | none => .error .extraction
          | some cand =>
            match jsonLoads (cleanJsonStr cand) with
            | some v => .ok v
            | none => .error (.parse (cleanJsonStr cand)) := by
        show (match (if startsEndsBrace (pyStrip s) then some (pyStrip s)
                     else searchBrace (pyStrip s)) with
              | none => (.error .extraction : Except CoerceError JVal)
              | some cand =>
                match jsonLoads (cleanJsonStr cand) with
                | some v => .ok v
                | none => .error (.parse (cleanJsonStr cand))) = _
        rw [if_neg hb]
      have hnc : ¬((pyStrip s).head? = some '{' ∧ (pyStrip s).getLast? = some '}') :=
        fun hx => hb ((startsEndsBrace_iff _).mpr hx)
      cases hsb : searchBrace (pyStrip s) with
      | none =>
        have hne := (searchBrace_eq_none_iff (pyStrip s)).mp hsb
        have heq2 : coerceJson s = .error .extraction := by rw [heq, hsb]
        rw [heq2]
        constructor
        · intro _
          rintro (hx | hx)
          · exact hnc hx
          · exact hne hx
        · intro _; rfl
      | some r =>
        have hex : ∃ a m b : List Char, pyStrip s = a ++ '{' :: (m ++ '}' :: b) := by
          by_contra hno
          rw [(searchBrace_eq_none_iff (pyStrip s)).mpr hno] at hsb
          cases hsb
        cases hj : jsonLoads (cleanJsonStr r) with
        | some v =>
          have heq2 : coerceJson s = .ok v := by
            rw [heq, hsb]
            show (match jsonLoads (cleanJsonStr r) with
                  | some w => (Except.ok w : Except CoerceError JVal)
                  | none => Except.error (CoerceError.parse (cleanJsonStr r))) =
              Except.ok v
            rw [hj]
          rw [heq2]
          constructor
          · intro h; cases h
          · intro hno; exact absurd (Or.inr hex) hno
        | none =>
          have heq2 : coerceJson s = .error (.parse (cleanJsonStr r)) := by
            rw [heq, hsb]
            show (match jsonLoads (cleanJsonStr r) with
                  | some w => (Except.ok w : Except CoerceError JVal)
                  | none => Except.error (CoerceError.parse (cleanJsonStr r))) =
              Except.error (CoerceError.parse (cleanJsonStr r))
            rw [hj]
          rw [heq2]
          constructor
          · intro h
            exact absurd h (by simp)
          · intro hno; exact absurd (Or.inr hex) hno
  · decide

/-! ### Document fetcher error handling (C9) -/

/-- Counterexample to C9 as stated: a failure of the
`_save_formatted_to_file` log append — which sits outside the `try` blocks
on the S3 path — escapes `fetch_data` as an exception rather than being
returned as a structured result. -/
theorem c9_counterexample :
    fetchData
      ⟨fun _ => .ok "patient data", fun _ => .ok "x", fun _ => false,
       fun _ => .error "e", fun _ => .error "No space left on device"⟩
      (some "s3://bucket/key") = .error "No space left on device" := rfl

/-- C9 (amended): provided the log append succeeds, `fetch_data` always
returns a structured result and never raises: `meta.source_type` is always
one of `unknown`/`s3`/`url`/`file`; a missing (or empty) source yields the
explicit no-source error result; S3 read, HTTP request, and file read
failures are each captured in the returned result; an unrecognized source
yields the explicit unsupported error result. -/
theorem c9_structured_errors (env : FetchEnv) (ds : Option String)
    (hlog : ∀ t, env.logWrite t = .ok ()) :
    ∃ r : FetchResult, fetchData env ds = .ok r ∧
      (r.source_type = "unknown" ∨ r.source_type = "s3" ∨ r.source_type = "url" ∨
        r.source_type = "file") ∧
      ((ds = none ∨ ds = some "") → r.error = some "No data_source provided.") ∧
      (∀ s, ds = some s → s ≠ "" →
        lowerStartsWith s "s3://" = true →
        ∀ e, env.s3Read s = .error e → r.error = some ("S3 error: " ++ e)) ∧
      (∀ s, ds = some s → s ≠ "" →
        lowerStartsWith s "s3://" = false →
        (lowerStartsWith s "http://" || lowerStartsWith s "https://") = true →
        ∀ e, env.httpGet s = .error e → r.error = some ("HTTP error: " ++ e)) ∧
      (∀ s, ds = some s → s ≠ "" →
        lowerStartsWith s "s3://" = false →
        lowerStartsWith s "http://" = false → lowerStartsWith s "https://" = false →
        env.fileExists s = true →
        ∀ e, env.fileRead s = .error e → r.error = some ("File read error: " ++ e)) ∧
      (∀ s, ds = some s → s ≠ "" →
        lowerStartsWith s "s3://" = false →
        lowerStartsWith s "http://" = false → lowerStartsWith s "https://" = false →
        env.fileExists s = false →
        r.error = some ("Unsupported data_source: " ++ s)) := by
  cases ds with
  | none =>
    refine ⟨⟨some "No data_source provided.", "", "", "unknown", "None"⟩, rfl,
      ?_, ?_, ?_, ?_, ?_, ?_⟩
    · left; rfl
    · intro _; rfl
    · intro s hs; cases hs
    · intro s hs; cases hs
    · intro s hs; cases hs
    · intro s hs; cases hs
  | some s0 =>
    by_cases hse : s0 = ""
    · subst hse
      refine ⟨⟨some "No data_source provided.", "", "", "unknown", "None"⟩, rfl,
        ?_, ?_, ?_, ?_, ?_, ?_⟩
      · left; rfl
      · intro _; rfl
      · intro s hs he
        cases hs
        exact absurd rfl he
      · intro s hs he
        cases hs
        exact absurd rfl he
      · intro s hs he
        cases hs
        exact absurd rfl he
      · intro s hs he
        cases hs
        exact absurd rfl he
    · have hbody : fetchData env (some s0) =
          (if lowerStartsWith s0 "s3://" then
            match env.s3Read s0 with
            | .error e => .ok ⟨some ("S3 error: " ++ e), "", "", "s3", s0⟩
            | .ok raw =>
              match env.logWrite (formatRowsStr raw) with
              | .error e => .error e
              | .ok _ => .ok ⟨none, raw, formatRowsStr raw, "s3", s0⟩
          else if lowerStartsWith s0 "http://" || lowerStartsWith s0 "https://" then
            match env.httpGet s0 with
            | .error e => .ok ⟨some ("HTTP error: " ++ e), "", "", "url", s0⟩
            | .ok raw =>
              match env.logWrite (formatRowsStr raw) with
              | .error e => .error e
              | .ok _ => .ok ⟨none, raw, formatRowsStr raw, "url", s0⟩
          else if env.fileExists s0 then
            match env.fileRead s0 with
            | .error e => .ok ⟨some ("File read error: " ++ e), "", "", "file", s0⟩
            | .ok raw => .ok ⟨none, raw, formatRowsStr raw, "file", s0⟩
          else .ok ⟨some ("Unsupported data_source: " ++ s0), "", "", "unknown", s0⟩) := by
        simp only [fetchData]
        rw [if_neg hse]
      by_cases h1 : lowerStartsWith s0 "s3://" = true
      · simp only [h1, eq_self_iff_true, if_true] at hbody
        cases hs3 : env.s3Read s0 with
        | error e =>
          rw [hs3] at hbody
          refine ⟨⟨some ("S3 error: " ++ e), "", "", "s3", s0⟩, hbody,
            ?_, ?_, ?_, ?_, ?_, ?_⟩
          · right; left; rfl
          · rintro (h | h) <;> cases h <;> exact absurd rfl hse
          · intro s hs _ _ e2 he2
            cases hs
            rw [hs3] at he2
            cases he2
            rfl
          · intro s hs _ hns3
            cases hs
            rw [h1] at hns3
            cases hns3
          · intro s hs _ hns3
            cases hs
            rw [h1] at hns3
            cases hns3
          · intro s hs _ hns3
            cases hs
            rw [h1] at hns3
            cases hns3
        | ok raw =>
          rw [hs3] at hbody
          simp only [hlog] at hbody
          refine ⟨⟨none, raw, formatRowsStr raw, "s3", s0⟩, hbody,
            ?_, ?_, ?_, ?_, ?_, ?_⟩
          · right; left; rfl
          · rintro (h | h) <;> cases h <;> exact absurd rfl hse
          · intro s hs _ _ e2 he2
            cases hs
            rw [hs3] at he2
            cases he2
          · intro s hs _ hns3
            cases hs
            rw [h1] at hns3
            cases hns3
          · intro s hs _ hns3
            cases hs
            rw [h1] at hns3
            cases hns3
          · intro s hs _ hns3
            cases hs
            rw [h1] at hns3
            cases hns3
      · have h1f : lowerStartsWith s0 "s3://" = false := by
          cases hx : lowerStartsWith s0 "s3://"
          · rfl
          · exact absurd hx h1
        rw [h1f] at hbody
        simp only [Bool.false_eq_true, if_false] at hbody
        by_cases h2 : (lowerStartsWith s0 "http://" || lowerStartsWith s0 "https://") = true
        · simp only [h2, eq_self_iff_true, if_true] at hbody
          cases hh : env.httpGet s0 with
          | error e =>
            rw [hh] at hbody
            refine ⟨⟨some ("HTTP error: " ++ e), "", "", "url", s0⟩, hbody,
              ?_, ?_, ?_, ?_, ?_, ?_⟩
            · right; right; left; rfl
            · rintro (h | h) <;> cases h <;> exact absurd rfl hse
            · intro s hs _ hs3t
              cases hs
              rw [h1f] at hs3t
              cases hs3t
            · intro s hs _ _ _ e2 he2
              cases hs
              rw [hh] at he2
              cases he2
              rfl
            · intro s hs _ _ hhttp hhttps
              cases hs
              rw [hhttp, hhttps] at h2
              cases h2
            · intro s hs _ _ hhttp hhttps
              cases hs
              rw [hhttp, hhttps] at h2
              cases h2
          | ok raw =>
            rw [hh] at hbody
            simp only [hlog] at hbody
            refine ⟨⟨none, raw, formatRowsStr raw, "url", s0⟩, hbody,
              ?_, ?_, ?_, ?_, ?_, ?_⟩
            · right; right; left; rfl
            · rintro (h | h) <;> cases h <;> exact absurd rfl hse
            · intro s hs _ hs3t
              cases hs
              rw [h1f] at hs3t
              cases hs3t
            · intro s hs _ _ _ e2 he2
              cases hs
              rw [hh] at he2
              cases he2
            · intro s hs _ _ hhttp hhttps
              cases hs
              rw [hhttp, hhttps] at h2
              cases h2
            · intro s hs _ _ hhttp hhttps
              cases hs
              rw [hhttp, hhttps] at h2
              cases h2
        · have h2f : (lowerStartsWith s0 "http://" || lowerStartsWith s0 "https://") = false := by
            cases hx : (lowerStartsWith s0 "http://" || lowerStartsWith s0 "https://")
            · rfl
            · exact absurd hx h2
          rw [h2f] at hbody
          simp only [Bool.false_eq_true, if_false] at hbody
          by_cases h3 : env.fileExists s0 = true
          · simp only [h3, eq_self_iff_true, if_true] at hbody
            cases hf : env.fileRead s0 with
            | error e =>
              rw [hf] at hbody
              refine ⟨⟨some ("File read error: " ++ e), "", "", "file", s0⟩, hbody,
                ?_, ?_, ?_, ?_, ?_, ?_⟩
              · right; right; right; rfl
              · rintro (h | h) <;> cases h <;> exact absurd rfl hse
              · intro s hs _ hs3t
                cases hs
                rw [h1f] at hs3t
                cases hs3t
              · intro s hs _ _ hor
                cases hs
                rw [h2f] at hor
                cases hor
              · intro s hs _ _ _ _ _ e2 he2
                cases hs
                rw [hf] at he2
                cases he2
                rfl
              · intro s hs _ _ _ _ hfe
                cases hs
                rw [h3] at hfe
                cases hfe
            | ok raw =>
              rw [hf] at hbody
              refine ⟨⟨none, raw, formatRowsStr raw, "file", s0⟩, hbody,
                ?_, ?_, ?_, ?_, ?_, ?_⟩
              · right; right; right; rfl
              · rintro (h | h) <;> cases h <;> exact absurd rfl hse
              · intro s hs _ hs3t
                cases hs
                rw [h1f] at hs3t
                cases hs3t
              · intro s hs _ _ hor
                cases hs
                rw [h2f] at hor
                cases hor
              · intro s hs _ _ _ _ _ e2 he2
                cases hs
                rw [hf] at he2
                cases he2
              · intro s hs _ _ _ _ hfe
                cases hs
                rw [h3] at hfe
                cases hfe
          · have h3f : env.fileExists s0 = false := by
              cases hx : env.fileExists s0
              · rfl
              · exact absurd hx h3
            rw [h3f] at hbody
            simp only [Bool.false_eq_true, if_false] at hbody
            refine ⟨⟨some ("Unsupported data_source: " ++ s0), "", "", "unknown", s0⟩,
              hbody, ?_, ?_, ?_, ?_, ?_, ?_⟩
            · left; rfl
            · rintro (h | h) <;> cases h <;> exact absurd rfl hse
            · intro s hs _ hs3t
              cases hs
              rw [h1f] at hs3t
              cases hs3t
            · intro s hs _ _ hor
              cases hs
              rw [h2f] at hor
              cases hor
            · intro s hs _ _ _ _ hfe
              cases hs
              rw [h3f] at hfe
              cases hfe
            · intro s hs _ _ _ _ _
              cases hs
              rfl

/-- Witness for the amended C9 on a concrete environment with a working log
append and a missing data source. -/
theorem c9_witness :
    (∀ t, (FetchEnv.mk (fun _ => .ok "x") (fun _ => .ok "y") (fun _ => false)
        (fun _ => .error "e") (fun _ => .ok ())).logWrite t = .ok ()) ∧
    ∃ r : FetchResult,
      fetchData
        (FetchEnv.mk (fun _ => .ok "x") (fun _ => .ok "y") (fun _ => false)
          (fun _ => .error "e") (fun _ => .ok ())) none = .ok r ∧
      (r.source_type = "unknown" ∨ r.source_type = "s3" ∨ r.source_type = "url" ∨
        r.source_type = "file") ∧
      (((none : Option String) = none ∨ (none : Option String) = some "") →
        r.error = some "No data_source provided.") ∧
      (∀ s, (none : Option String) = some s → s ≠ "" →
        lowerStartsWith s "s3://" = true →
        ∀ e, (FetchEnv.mk (fun _ => .ok "x") (fun _ => .ok "y") (fun _ => false)
          (fun _ => .error "e") (fun _ => .ok ())).s3Read s = .error e →
          r.error = some ("S3 error: " ++ e)) ∧
      (∀ s, (none : Option String) = some s → s ≠ "" →
        lowerStartsWith s "s3://" = false →
        (lowerStartsWith s "http://" || lowerStartsWith s "https://") = true →
        ∀ e, (FetchEnv.mk (fun _ => .ok "x") (fun _ => .ok "y") (fun _ => false)
          (fun _ => .error "e") (fun _ => .ok ())).httpGet s = .error e →
          r.error = some ("HTTP error: " ++ e)) ∧
      (∀ s, (none : Option String) = some s → s ≠ "" →
        lowerStartsWith s "s3://" = false →
        lowerStartsWith s "http://" = false → lowerStartsWith s "https://" = false →
        (FetchEnv.mk (fun _ => .ok "x") (fun _ => .ok "y") (fun _ => false)
          (fun _ => .error "e") (fun _ => .ok ())).fileExists s = true →
        ∀ e, (FetchEnv.mk (fun _ => .ok "x") (fun _ => .ok "y") (fun _ => false)
          (fun _ => .error "e") (fun _ => .ok ())).fileRead s = .error e →
          r.error = some ("File read error: " ++ e)) ∧
      (∀ s, (none : Option String) = some s → s ≠ "" →
        lowerStartsWith s "s3://" = false →
        lowerStartsWith s "http://" = false → lowerStartsWith s "https://" = false →
        (FetchEnv.mk (fun _ => .ok "x") (fun _ => .ok "y") (fun _ => false)
          (fun _ => .error "e") (fun _ => .ok ())).fileExists s = false →
        r.error = some ("Unsupported data_source: " ++ s)) :=
  ⟨fun _ => rfl,
   c9_structured_errors
     (FetchEnv.mk (fun _ => .ok "x") (fun _ => .ok "y") (fun _ => false)
       (fun _ => .error "e") (fun _ => .ok ()))
     none (fun _ => rfl)⟩

/-- Witness for the amended C7: a delimited input is split, trimmed, and
rejoined with newlines. -/
theorem c7_witness :
    (" r1@@r2 ").data.contains '@' = true ∧
    formatRowsAsLines (" r1@@r2 ").data =
      List.intercalate ['\n']
        (((pySplitOn '@' (pyStrip (" r1@@r2 ").data)).map pyStrip).filter
          (fun c => c ≠ [])) :=
  ⟨by decide, (c7_row_reformat (" r1@@r2 ").data).2.1 (by decide)⟩

/-! ### Digit rendering and parsing -/

theorem dropWhile_append_head {p : Char → Bool} :
    ∀ a b : List Char, (∀ c, b.head? = some c → p c = false) →
      List.dropWhile p (a ++ b) = List.dropWhile p a ++ b := by
  intro a b hb
  induction a with
  | nil =>
    simp only [List.nil_append, List.dropWhile_nil]
    cases b with
    | nil => rfl
    | cons c t =>
      rw [List.dropWhile_cons_of_neg]
      rw [hb c rfl]
      exact Bool.false_ne_true
  | cons x a2 ih =>
    by_cases hx : p x = true
    · rw [List.cons_append, List.dropWhile_cons_of_pos hx, List.dropWhile_cons_of_pos hx, ih]
    · have hx2 : ¬p x = true := hx
      rw [List.cons_append, List.dropWhile_cons_of_neg hx2, List.dropWhile_cons_of_neg hx2,
        List.cons_append]

theorem takeWhile_append_all {p : Char → Bool} :
    ∀ a b : List Char, (∀ c ∈ a, p c = true) →
      (∀ c, b.head? = some c → p c = false) →
      (a ++ b).takeWhile p = a ∧ (a ++ b).dropWhile p = b := by
  intro a b ha hb
  induction a with
  | nil =>
    refine ⟨?_, ?_⟩
    · cases b with
      | nil => rfl
      | cons c t =>
        simp only [List.nil_append]
        rw [List.takeWhile_cons_of_neg]
        rw [hb c rfl]
        exact Bool.false_ne_true
    · cases b with
      | nil => rfl
      | cons c t =>
        simp only [List.nil_append]
        rw [List.dropWhile_cons_of_neg]
        rw [hb c rfl]
        exact Bool.false_ne_true
  | cons x a2 ih =>
    have hx : p x = true := ha x (List.mem_cons_self _ _)
    have ih2 := ih (fun c hc => ha c (List.mem_cons_of_mem _ hc))
    refine ⟨?_, ?_⟩
    · rw [List.cons_append, List.takeWhile_cons_of_pos hx, ih2.1]
    · rw [List.cons_append, List.dropWhile_cons_of_pos hx, ih2.2]

theorem natToCharsAux_fuel :
    ∀ fuel1 fuel2 n acc, n < fuel1 → n < fuel2 →
      natToCharsAux fuel1 n acc = natToCharsAux fuel2 n acc := by
  intro fuel1
  induction fuel1 with
  | zero => intro fuel2 n acc h; omega
  | succ f1 ih =>
    intro fuel2 n acc h1 h2
    cases fuel2 with
    | zero => omega
    | succ f2 =>
      by_cases h10 : n < 10
      · simp only [natToCharsAux, if_pos h10]
      · simp only [natToCharsAux, if_neg h10]
        exact ih f2 (n / 10) _ (by omega) (by omega)

theorem natToCharsAux_acc :
    ∀ fuel n acc, n < fuel →
      natToCharsAux fuel n acc = natToCharsAux fuel n [] ++ acc := by
  intro fuel
  induction fuel with
  | zero => intro n acc h; omega
  | succ f ih =>
    intro n acc h
    by_cases h10 : n < 10
    · simp only [natToCharsAux, if_pos h10]
      rfl
    · simp only [natToCharsAux, if_neg h10]
      have hlt : n / 10 < f := by
        have := Nat.div_lt_self (show 0 < n by omega) (show 1 < 10 by omega)
        omega
      rw [ih (n / 10) (digitChar (n % 10) :: acc) hlt,
        ih (n / 10) [digitChar (n % 10)] hlt, List.append_assoc]
      rfl

theorem natToChars_lt10 {n : Nat} (h : n < 10) : natToChars n = [digitChar n] := by
  simp only [natToChars, natToCharsAux, if_pos h]

theorem natToChars_ge10 {n : Nat} (h : ¬n < 10) :
    natToChars n = natToChars (n / 10) ++ [digitChar (n % 10)] := by
  have hlt : n / 10 < n := Nat.div_lt_self (by omega) (by omega)
  show natToCharsAux (n + 1) n [] = _
  simp only [natToCharsAux, if_neg h]
  rw [natToCharsAux_acc n (n / 10) [digitChar (n % 10)] hlt,
    natToCharsAux_fuel n (n / 10 + 1) (n / 10) [] hlt (by omega)]
  rfl

theorem digitChar_isDigit {d : Nat} (h : d < 10) : (digitChar d).isDigit = true := by
  interval_cases d <;> decide

theorem digitVal_digitChar {d : Nat} (h : d < 10) : digitVal (digitChar d) = d := by
  interval_cases d <;> decide

theorem natToChars_spec :
    ∀ n : Nat, (∀ c ∈ natToChars n, c.isDigit = true) ∧ natToChars n ≠ [] ∧
      (natToChars n).foldl (fun a c => a * 10 + digitVal c) 0 = n := by
  intro n
  induction n using Nat.strong_induction_on with
  | _ n ih =>
    by_cases h10 : n < 10
    · rw [natToChars_lt10 h10]
      refine ⟨?_, by simp, ?_⟩
      · intro c hc
        rw [List.mem_singleton] at hc
        subst hc
        exact digitChar_isDigit h10
      · simp [List.foldl, digitVal_digitChar h10]
    · rw [natToChars_ge10 h10]
      have hdiv : n / 10 < n := Nat.div_lt_self (by omega) (by omega)
      have ihd := ih (n / 10) hdiv
      refine ⟨?_, by simp, ?_⟩
      · intro c hc
        rcases List.mem_append.mp hc with hc | hc
        · exact ihd.1 c hc
        · rw [List.mem_singleton] at hc
          subst hc
          exact digitChar_isDigit (Nat.mod_lt _ (by omega))
      · rw [List.foldl_append, ihd.2.2]
        simp only [List.foldl]
        rw [digitVal_digitChar (Nat.mod_lt _ (by omega))]
        omega

theorem parseNatChars_natToChars (n : Nat) (rest : List Char) (hr : headNotDigit rest) :
    parseNatChars (natToChars n ++ rest) = some (n, rest) := by
  have hs := natToChars_spec n
  have htw := takeWhile_append_all (natToChars n) rest hs.1
    (fun c hc => hr c hc)
  unfold parseNatChars
  rw [htw.1, htw.2]
  cases he : natToChars n with
  | nil => exact absurd he hs.2.1
  | cons c t =>
    have hfold := hs.2.2
    rw [he] at hfold
    show some (List.foldl (fun a c => a * 10 + digitVal c) 0 (c :: t), rest) =
      some (n, rest)
    rw [hfold]

/-! ### String-body and whitespace parsing lemmas -/

theorem parseStrRest_render :
    ∀ cs rest : List Char, (∀ c ∈ cs, 32 ≤ c.toNat) →
      parseStrRest (renderStrChars cs ++ '"' :: rest) = some (cs, rest) := by
  intro cs
  induction cs with
  | nil =>
    intro rest _
    show parseStrRest ([] ++ '"' :: rest) = some ([], rest)
    rw [List.nil_append]
    unfold parseStrRest
    simp
  | cons c t ih =>
    intro rest hok
    have hc32 : 32 ≤ c.toNat := hok c (List.mem_cons_self _ _)
    have ht : ∀ x ∈ t, 32 ≤ x.toNat := fun x hx => hok x (List.mem_cons_of_mem _ hx)
    by_cases hesc : c = '"' ∨ c = '\\'
    · rcases hesc with h | h
      · subst h
        rw [show renderStrChars ('"' :: t) = '\\' :: '"' :: renderStrChars t by
          simp [renderStrChars]]
        rw [List.cons_append, List.cons_append]
        unfold parseStrRest
        simp [ih rest ht]
      · subst h
        rw [show renderStrChars ('\\' :: t) = '\\' :: '\\' :: renderStrChars t by
          simp [renderStrChars]]
        rw [List.cons_append, List.cons_append]
        unfold parseStrRest
        simp [ih rest ht]
    · have hne1 : c ≠ '"' := fun h => hesc (Or.inl h)
      have hne2 : c ≠ '\\' := fun h => hesc (Or.inr h)
      have hr : renderStrChars (c :: t) = c :: renderStrChars t := by
        simp only [renderStrChars]
        rw [if_neg]
        simp [hne1, hne2]
      rw [hr, List.cons_append]
      unfold parseStrRest
      rw [if_neg hne1, if_neg hne2, if_neg (show ¬(c.toNat < 32) by omega), ih rest ht]

theorem skipWs_cons_of_neg {c : Char} {t : List Char} (h : isJsonWs c = false) :
    skipWs (c :: t) = c :: t := by
  unfold skipWs
  rw [List.dropWhile_cons_of_neg]
  rw [h]
  exact Bool.false_ne_true

theorem skipWs_space (t : List Char) : skipWs (' ' :: t) = skipWs t := by
  unfold skipWs
  rw [List.dropWhile_cons_of_pos]
  rfl

theorem parseF_val_space (fuel : Nat) (X : List Char) :
    parseF fuel .val (' ' :: X) = parseF fuel .val X := by
  cases fuel with
  | zero => rfl
  | succ f =>
    show (match skipWs (' ' :: X) with
          | [] => none
          | c :: r => _) = _
    rw [skipWs_space]
    rfl

theorem parseF_elems_space (fuel : Nat) (X : List Char) :
    parseF fuel .elems (' ' :: X) = parseF fuel .elems X := by
  cases fuel with
  | zero => rfl
  | succ f =>
    show (match parseF f .val (' ' :: X) with
          | some (.rv v, r) => _
          | _ => none) = _
    rw [parseF_val_space]
    rfl

theorem parseF_members_space (fuel : Nat) (X : List Char) :
    parseF fuel .members (' ' :: X) = parseF fuel .members X := by
  cases fuel with
  | zero => rfl
  | succ f =>
    show (match skipWs (' ' :: X) with
          | [] => none
          | c :: r => _) = _
    rw [skipWs_space]
    rfl

theorem isJsonWs_false_of_isDigit {c : Char} (hd : c.isDigit = true) :
    isJsonWs c = false := by
  cases hw : isJsonWs c
  · rfl
  · exfalso
    have h1 : c = ' ' ∨ c = '\t' ∨ c = '\n' ∨ c = '\r' := by
      simp only [isJsonWs, Bool.or_eq_true, decide_eq_true_eq] at hw
      tauto
    rcases h1 with h | h | h | h <;> (subst h; exact absurd hd (by decide))

theorem parseF_val_digit (fuel : Nat) (c : Char) (r : List Char) (hd : c.isDigit = true) :
    parseF (fuel + 1) .val (c :: r) =
      match parseNatChars (c :: r) with
      | some (m, r2) => some (.rv (.jnum (m : Int)), r2)
      | none => none := by
  have h1 : c ≠ '{' := fun h => by subst h; simp at hd
  have h2 : c ≠ '[' := fun h => by subst h; simp at hd
  have h3 : c ≠ '"' := fun h => by subst h; simp at hd
  have h4 : c ≠ '-' := fun h => by subst h; simp at hd
  show (match skipWs (c :: r) with
        | [] => none
        | c :: r => _) = _
  rw [skipWs_cons_of_neg (isJsonWs_false_of_isDigit hd)]
  show (if c = '{' then _
        else if c = '[' then _
        else if c = '"' then _
        else if c = '-' then _
        else if c.isDigit then _
        else _) = _
  rw [if_neg h1, if_neg h2, if_neg h3, if_neg h4, if_pos hd]

theorem parseF_val_minus (fuel : Nat) (r : List Char) :
    parseF (fuel + 1) .val ('-' :: r) =
      match parseNatChars r with
      | some (m, r2) => some (.rv (.jnum (-(m : Int))), r2)
      | none => none := by
  simp only [parseF]
  rw [skipWs_cons_of_neg (by decide)]
  dsimp only
  rw [if_neg (show ('-' : Char) ≠ '{' by decide), if_neg (show ('-' : Char) ≠ '[' by decide),
    if_neg (show ('-' : Char) ≠ '"' by decide), if_pos (show ('-' : Char) = '-' from rfl)]

theorem parseF_val_lbrace (fuel : Nat) (r : List Char) :
    parseF (fuel + 1) .val ('{' :: r) =
      (match skipWs r with
       | [] => none
       | c2 :: r2 =>
         if c2 = '}' then some (.rv (.jobj .nil), r2)
         else
           match parseF fuel .members (c2 :: r2) with
           | some (.ro fs, r3) => some (.rv (.jobj fs), r3)
           | _ => none) := by
  simp only [parseF]
  rw [skipWs_cons_of_neg (by decide)]
  dsimp only
  rw [if_pos (show ('{' : Char) = '{' from rfl)]

theorem parseF_val_lbrack (fuel : Nat) (r : List Char) :
    parseF (fuel + 1) .val ('[' :: r) =
      (match skipWs r with
       | [] => none
       | c2 :: r2 =>
         if c2 = ']' then some (.rv (.jarr .nil), r2)
         else
           match parseF fuel .elems (c2 :: r2) with
           | some (.ra xs, r3) => some (.rv (.jarr xs), r3)
           | _ => none) := by
  simp only [parseF]
  rw [skipWs_cons_of_neg (by decide)]
  dsimp only
  rw [if_neg (show ('[' : Char) ≠ '{' by decide), if_pos (show ('[' : Char) = '[' from rfl)]

theorem parseF_val_quote (fuel : Nat) (r : List Char) :
    parseF (fuel + 1) .val ('"' :: r) =
      (match parseStrRest r with
       | some (cs, r2) => some (.rv (.jstr cs), r2)
       | none => none) := by
  simp only [parseF]
  rw [skipWs_cons_of_neg (by decide)]
  dsimp only
  rw [if_neg (show ('"' : Char) ≠ '{' by decide), if_neg (show ('"' : Char) ≠ '[' by decide),
    if_pos (show ('"' : Char) = '"' from rfl)]

theorem parseF_val_litn (fuel : Nat) (r : List Char) :
    parseF (fuel + 1) .val ('n' :: r) =
      (match dropLit ['u', 'l', 'l'] r with
       | some r2 => some (.rv .jnull, r2)
       | none => none) := by
  simp only [parseF]
  rw [skipWs_cons_of_neg (by decide)]
  dsimp only
  rw [if_neg (show ('n' : Char) ≠ '{' by decide), if_neg (show ('n' : Char) ≠ '[' by decide),
    if_neg (show ('n' : Char) ≠ '"' by decide), if_neg (show ('n' : Char) ≠ '-' by decide),
    if_neg (show ¬('n' : Char).isDigit = true by decide),
    if_pos (show ('n' : Char) = 'n' from rfl)]

theorem parseF_val_litt (fuel : Nat) (r : List Char) :
    parseF (fuel + 1) .val ('t' :: r) =
      (match dropLit ['r', 'u', 'e'] r with
       | some r2 => some (.rv (.jbool true), r2)
       | none => none) := by
  simp only [parseF]
  rw [skipWs_cons_of_neg (by decide)]
  dsimp only
  rw [if_neg (show ('t' : Char) ≠ '{' by decide), if_neg (show ('t' : Char) ≠ '[' by decide),
    if_neg (show ('t' : Char) ≠ '"' by decide), if_neg (show ('t' : Char) ≠ '-' by decide),
    if_neg (show ¬('t' : Char).isDigit = true by decide),
    if_neg (show ('t' : Char) ≠ 'n' by decide), if_pos (show ('t' : Char) = 't' from rfl)]

theorem parseF_val_litf (fuel : Nat) (r : List Char) :
    parseF (fuel + 1) .val ('f' :: r) =
      (match dropLit ['a', 'l', 's', 'e'] r with
       | some r2 => some (.rv (.jbool false), r2)
       | none => none) := by
  simp only [parseF]
  rw [skipWs_cons_of_neg (by decide)]
  dsimp only
  rw [if_neg (show ('f' : Char) ≠ '{' by decide), if_neg (show ('f' : Char) ≠ '[' by decide),
    if_neg (show ('f' : Char) ≠ '"' by decide), if_neg (show ('f' : Char) ≠ '-' by decide),
    if_neg (show ¬('f' : Char).isDigit = true by decide),
    if_neg (show ('f' : Char) ≠ 'n' by decide), if_neg (show ('f' : Char) ≠ 't' by decide),
    if_pos (show ('f' : Char) = 'f' from rfl)]

theorem parseF_val_renderInt (fuel : Nat) (n : Int) (rest : List Char)
    (hr : headNotDigit rest) :
    parseF (fuel + 1) .val (renderInt n ++ rest) = some (.rv (.jnum n), rest) := by
  by_cases hn : n < 0
  · have hri : renderInt n = '-' :: natToChars n.natAbs := by
      unfold renderInt
      rw [if_pos hn]
    rw [hri, List.cons_append, parseF_val_minus,
      parseNatChars_natToChars n.natAbs rest hr]
    simp
    rw [abs_of_neg hn]
    ring
  · have hri : renderInt n = natToChars n.toNat := by
      unfold renderInt
      rw [if_neg hn]
    rw [hri]
    have hs := natToChars_spec n.toNat
    cases he : natToChars n.toNat with
    | nil => exact absurd he hs.2.1
    | cons d ds =>
      have hd : d.isDigit = true := by
        apply hs.1
        rw [he]
        exact List.mem_cons_self _ _
      rw [List.cons_append, parseF_val_digit fuel d (ds ++ rest) hd]
      have hp : parseNatChars (d :: (ds ++ rest)) = some (n.toNat, rest) := by
        rw [show d :: (ds ++ rest) = (d :: ds) ++ rest from rfl, ← he]
        exact parseNatChars_natToChars n.toNat rest hr
      rw [hp]
      have h2 : ((n.toNat : Nat) : Int) = n := by omega
      simp [h2]

/-! ### Head and last characters of rendered values -/

theorem digit_not_special {c : Char} (hd : c.isDigit = true) :
    isReSpace c = false ∧ isCloser c = false ∧ c ≠ ',' := by
  refine ⟨?_, ?_, ?_⟩
  · cases hw : isReSpace c
    · rfl
    · exfalso
      have h1 : c = ' ' ∨ c = '\t' ∨ c = '\n' ∨ c = '\r' ∨ c = '\x0b' ∨ c = '\x0c' := by
        simp only [isReSpace, Bool.or_eq_true, decide_eq_true_eq] at hw
        tauto
      rcases h1 with h | h | h | h | h | h <;> (subst h; exact absurd hd (by decide))
  · cases hw : isCloser c
    · rfl
    · exfalso
      have h1 : c = '}' ∨ c = ']' := by
        simp only [isCloser, Bool.or_eq_true, decide_eq_true_eq] at hw
        tauto
      rcases h1 with h | h <;> (subst h; exact absurd hd (by decide))
  · intro h
    subst h
    exact absurd hd (by decide)

theorem renderV_head :
    ∀ v : JVal, ∃ c t2, renderV v = c :: t2 ∧ isJsonWs c = false ∧
      isReSpace c = false ∧ isCloser c = false ∧ c ≠ ',' := by
  intro v
  cases v with
  | jnull => exact ⟨'n', _, rfl, by decide, by decide, by decide, by decide⟩
  | jbool b =>
    cases b with
    | true =>
      exact ⟨'t', ['r', 'u', 'e'], by simp [renderV], by decide, by decide, by decide, by decide⟩
    | false =>
      exact ⟨'f', ['a', 'l', 's', 'e'], by simp [renderV], by decide, by decide, by decide,
        by decide⟩
  | jnum n =>
    by_cases hn : n < 0
    · exact ⟨'-', natToChars n.natAbs,
        by simp only [renderV, renderInt]; rw [if_pos hn],
        by decide, by decide, by decide, by decide⟩
    · have hs := natToChars_spec n.toNat
      cases he : natToChars n.toNat with
      | nil => exact absurd he hs.2.1
      | cons d ds =>
        have hd : d.isDigit = true := by
          apply hs.1
          rw [he]
          exact List.mem_cons_self _ _
        have hprops := digit_not_special hd
        refine ⟨d, ds, ?_, isJsonWs_false_of_isDigit hd, hprops.1, hprops.2.1, hprops.2.2⟩
        simp only [renderV, renderInt, if_neg hn]
        exact he
  | jstr s =>
    exact ⟨'"', renderStrChars s ++ ['"'], by simp [renderV], by decide, by decide, by decide,
      by decide⟩
  | jarr xs =>
    exact ⟨'[', renderElems xs ++ [']'], by simp [renderV], by decide, by decide, by decide,
      by decide⟩
  | jobj fs =>
    exact ⟨'{', renderMembers fs ++ ['}'], by simp [renderV], by decide, by decide, by decide,
      by decide⟩

theorem natToChars_last (n : Nat) :
    ∃ c, (natToChars n).getLast? = some c ∧ c.isDigit = true := by
  by_cases h10 : n < 10
  · rw [natToChars_lt10 h10]
    exact ⟨digitChar n, rfl, digitChar_isDigit h10⟩
  · rw [natToChars_ge10 h10]
    exact ⟨digitChar (n % 10), List.getLast?_concat _, digitChar_isDigit (Nat.mod_lt _ (by omega))⟩

theorem renderV_last :
    ∀ v : JVal, ∃ c, (renderV v).getLast? = some c ∧ isReSpace c = false ∧ c ≠ ',' := by
  intro v
  cases v with
  | jnull => exact ⟨'l', by decide, by decide, by decide⟩
  | jbool b =>
    cases b with
    | true => exact ⟨'e', by simp [renderV], by decide, by decide⟩
    | false => exact ⟨'e', by simp [renderV], by decide, by decide⟩
  | jnum n =>
    by_cases hn : n < 0
    · obtain ⟨c, hc, hcd⟩ := natToChars_last n.natAbs
      have hprops := digit_not_special hcd
      refine ⟨c, ?_, hprops.1, hprops.2.2⟩
      have hne : natToChars n.natAbs ≠ [] := (natToChars_spec n.natAbs).2.1
      simp only [renderV, renderInt, if_pos hn]
      rw [show ('-' :: natToChars n.natAbs) = ['-'] ++ natToChars n.natAbs from rfl]
      rw [List.getLast?_append_of_ne_nil _ hne]
      exact hc
    · obtain ⟨c, hc, hcd⟩ := natToChars_last n.toNat
      have hprops := digit_not_special hcd
      refine ⟨c, ?_, hprops.1, hprops.2.2⟩
      simp only [renderV, renderInt, if_neg hn]
      exact hc
  | jstr s =>
    refine ⟨'"', ?_, by decide, by decide⟩
    show ('"' :: (renderStrChars s ++ ['"'])).getLast? = some '"'
    rw [show ('"' :: (renderStrChars s ++ ['"'])) = ('"' :: renderStrChars s) ++ ['"'] from by
      rw [List.cons_append]]
    exact List.getLast?_concat _
  | jarr xs =>
    refine ⟨']', ?_, by decide, by decide⟩
    show ('[' :: (renderElems xs ++ [']'])).getLast? = some ']'
    rw [show ('[' :: (renderElems xs ++ [']'])) = ('[' :: renderElems xs) ++ [']'] from by
      rw [List.cons_append]]
    exact List.getLast?_concat _
  | jobj fs =>
    refine ⟨'}', ?_, by decide, by decide⟩
    show ('{' :: (renderMembers fs ++ ['}'])).getLast? = some '}'
    rw [show ('{' :: (renderMembers fs ++ ['}'])) = ('{' :: renderMembers fs) ++ ['}'] from by
      rw [List.cons_append]]
    exact List.getLast?_concat _

theorem renderElems_last : (xs : JArr) → xs = .nil ∨
    (renderElems xs ≠ [] ∧
      ∃ c, (renderElems xs).getLast? = some c ∧ isReSpace c = false ∧ c ≠ ',')
  | .nil => Or.inl rfl
  | .cons v t => by
    right
    obtain ⟨hc, ht2, hhead, _⟩ := renderV_head v
    cases t with
    | nil =>
      have he : renderElems (.cons v .nil) = renderV v := by
        simp [renderElems]
      rw [he]
      obtain ⟨c, hcl, hcw, hcc⟩ := renderV_last v
      exact ⟨by rw [hhead]; exact List.cons_ne_nil _ _, c, hcl, hcw, hcc⟩
    | cons v2 t2 =>
      have he : renderElems (.cons v (.cons v2 t2)) =
          renderV v ++ ',' :: ' ' :: renderElems (.cons v2 t2) := by
        simp [renderElems]
      rw [he]
      rcases renderElems_last (.cons v2 t2) with hnil | ⟨hne, c, hcl, hcw, hcc⟩
      · cases hnil
      · refine ⟨by simp, c, ?_, hcw, hcc⟩
        rw [List.getLast?_append_of_ne_nil _ (List.cons_ne_nil _ _)]
        show (',' :: ' ' :: renderElems (.cons v2 t2)).getLast? = some c
        rw [show (',' :: ' ' :: renderElems (.cons v2 t2)) =
          [',', ' '] ++ renderElems (.cons v2 t2) from rfl]
        rw [List.getLast?_append_of_ne_nil _ hne]
        exact hcl
termination_by structural xs => xs

theorem renderMembers_last : (fs : JObj) → fs = .nil ∨
    (renderMembers fs ≠ [] ∧
      ∃ c, (renderMembers fs).getLast? = some c ∧ isReSpace c = false ∧ c ≠ ',')
  | .nil => Or.inl rfl
  | .cons k v t => by
    right
    obtain ⟨hc, ht2, hhead, _⟩ := renderV_head v
    have hvne : renderV v ≠ [] := by rw [hhead]; exact List.cons_ne_nil _ _
    cases t with
    | nil =>
      have he : renderMembers (.cons k v .nil) =
          ('"' :: (renderStrChars k ++ '"' :: ':' :: ' ' :: renderV v)) := by
        simp [renderMembers]
      rw [he]
      obtain ⟨c, hcl, hcw, hcc⟩ := renderV_last v
      refine ⟨List.cons_ne_nil _ _, c, ?_, hcw, hcc⟩
      rw [show ('"' :: (renderStrChars k ++ '"' :: ':' :: ' ' :: renderV v)) =
        ('"' :: renderStrChars k ++ ['"', ':', ' ']) ++ renderV v from by simp]
      rw [List.getLast?_append_of_ne_nil _ hvne]
      exact hcl
    | cons k2 v2 t2 =>
      have he : renderMembers (.cons k v (.cons k2 v2 t2)) =
          ('"' :: (renderStrChars k ++ '"' :: ':' :: ' ' :: renderV v)) ++
            ',' :: ' ' :: renderMembers (.cons k2 v2 t2) := by
        simp [renderMembers]
      rw [he]
      rcases renderMembers_last (.cons k2 v2 t2) with hnil | ⟨hne, c, hcl, hcw, hcc⟩
      · cases hnil
      · refine ⟨by simp, c, ?_, hcw, hcc⟩
        rw [List.getLast?_append_of_ne_nil _ (List.cons_ne_nil _ _)]
        rw [show (',' :: ' ' :: renderMembers (.cons k2 v2 t2)) =
          [',', ' '] ++ renderMembers (.cons k2 v2 t2) from rfl]
        rw [List.getLast?_append_of_ne_nil _ hne]
        exact hcl
termination_by structural fs => fs

/-! ### Absence of repair-regex matches in rendered JSON -/

theorem matchWsCloser_cons_ws {c : Char} (t : List Char) (h : isReSpace c = true) :
    matchWsCloser (c :: t) = matchWsCloser t := by
  unfold matchWsCloser
  rw [List.dropWhile_cons_of_pos h]

theorem matchWsCloser_cons_nonws {c : Char} (t : List Char) (h : isReSpace c = false) :
    matchWsCloser (c :: t) = if isCloser c then some (c, t) else none := by
  unfold matchWsCloser
  rw [List.dropWhile_cons_of_neg (by rw [h]; exact Bool.false_ne_true)]

theorem matchWsCloser_append_none :
    ∀ a b : List Char, matchWsCloser a = none →
      ((∀ c ∈ a, isReSpace c = true) → matchWsCloser b = none) →
      matchWsCloser (a ++ b) = none := by
  intro a
  induction a with
  | nil =>
    intro b _ hws
    exact hws (fun c hc => absurd hc (List.not_mem_nil c))
  | cons c t ih =>
    intro b h hws
    cases hw : isReSpace c with
    | true =>
      rw [List.cons_append, matchWsCloser_cons_ws _ hw]
      rw [matchWsCloser_cons_ws _ hw] at h
      exact ih b h (fun hall => hws (fun x hx => by
        rcases List.mem_cons.mp hx with h1 | h1
        · subst h1; exact hw
        · exact hall x h1))
    | false =>
      rw [List.cons_append, matchWsCloser_cons_nonws _ hw]
      rw [matchWsCloser_cons_nonws _ hw] at h
      by_cases hcl : isCloser c = true
      · rw [if_pos hcl] at h; cases h
      · rw [if_neg hcl]

theorem hasTC_cons (c : Char) (t : List Char) :
    hasTC (c :: t) = ((c = ',' && (matchWsCloser t).isSome) || hasTC t) := rfl

theorem hasTC_append :
    ∀ a b : List Char, hasTC a = false → hasTC b = false →
      (tailCommaWs a → matchWsCloser b = none) → hasTC (a ++ b) = false := by
  intro a
  induction a with
  | nil => intro b _ hb _; exact hb
  | cons c t ih =>
    intro b ha hb hcross
    rw [hasTC_cons] at ha
    rcases Bool.or_eq_false_iff.mp ha with ⟨ha1, ha2⟩
    have hcross_t : tailCommaWs t → matchWsCloser b = none := by
      rintro ⟨u, w, hw, hws⟩
      exact hcross ⟨c :: u, w, by rw [hw]; rfl, hws⟩
    rw [List.cons_append, hasTC_cons]
    rw [ih b ha2 hb hcross_t]
    by_cases hc : c = ','
    · subst hc
      have hmw : matchWsCloser t = none := by
        rcases Bool.and_eq_false_iff.mp ha1 with h | h
        · simp at h
        · exact Option.not_isSome_iff_eq_none.mp (by rw [h]; exact Bool.false_ne_true)
      have hmwb : matchWsCloser (t ++ b) = none :=
        matchWsCloser_append_none t b hmw
          (fun hall => hcross ⟨[], t, rfl, hall⟩)
      simp [hmwb]
    · simp [hc]

theorem not_tailCommaWs_nil : ¬ tailCommaWs [] := by
  rintro ⟨u, w, hw, _⟩
  have h := congrArg List.length hw
  simp only [List.length_nil, List.length_append, List.length_cons] at h
  omega

theorem not_tailCommaWs_of_last {a : List Char} {c : Char}
    (h : a.getLast? = some c) (hw : isReSpace c = false) (hc : c ≠ ',') :
    ¬ tailCommaWs a := by
  rintro ⟨u, w, rfl, hws⟩
  cases w with
  | nil =>
    rw [List.getLast?_concat] at h
    exact hc (Option.some.inj h).symm
  | cons x w2 =>
    rw [List.getLast?_append_of_ne_nil _ (List.cons_ne_nil _ _),
        show (',' :: x :: w2) = [','] ++ x :: w2 from rfl,
        List.getLast?_append_of_ne_nil _ (List.cons_ne_nil _ _)] at h
    have hmem : c ∈ x :: w2 := List.mem_of_mem_getLast? h
    rw [hws c hmem] at hw
    cases hw

theorem natToCharsAux_digits :
    ∀ fuel n (acc : List Char), ∀ c ∈ natToCharsAux fuel n acc,
      c.isDigit = true ∨ c ∈ acc := by
  intro fuel
  induction fuel with
  | zero => intro n acc c hc; exact Or.inr hc
  | succ f ih =>
    intro n acc c hc
    unfold natToCharsAux at hc
    by_cases hn : n < 10
    · rw [if_pos hn] at hc
      rcases List.mem_cons.mp hc with h1 | h1
      · exact Or.inl (h1 ▸ digitChar_isDigit hn)
      · exact Or.inr h1
    · rw [if_neg hn] at hc
      rcases ih (n / 10) _ c hc with h1 | h1
      · exact Or.inl h1
      · rcases List.mem_cons.mp h1 with h2 | h2
        · exact Or.inl (h2 ▸ digitChar_isDigit (Nat.mod_lt n (by omega)))
        · exact Or.inr h2

theorem hasTC_of_no_comma :
    ∀ s : List Char, (∀ c ∈ s, c ≠ ',') → hasTC s = false := by
  intro s
  induction s with
  | nil => intro _; rfl
  | cons c t ih =>
    intro h
    rw [hasTC_cons, ih (fun x hx => h x (List.mem_cons_of_mem c hx))]
    have : (c = ',') = False := by
      simp only [eq_iff_iff, iff_false]
      exact h c (List.mem_cons_self c t)
    simp [this]

theorem hasTC_renderInt (n : Int) : hasTC (renderInt n) = false := by
  apply hasTC_of_no_comma
  intro c hc
  unfold renderInt at hc
  by_cases hn : n < 0
  · rw [if_pos hn] at hc
    rcases List.mem_cons.mp hc with h | h
    · subst h; decide
    · unfold natToChars at h
      rcases natToCharsAux_digits _ _ _ c h with h1 | h1
      · exact (digit_not_special h1).2.2
      · exact absurd h1 (List.not_mem_nil c)
  · rw [if_neg hn] at hc
    unfold natToChars at hc
    rcases natToCharsAux_digits _ _ _ c hc with h1 | h1
    · exact (digit_not_special h1).2.2
    · exact absurd h1 (List.not_mem_nil c)

theorem matchWsCloser_renderStr :
    ∀ t : List Char, matchWsCloser t = none → matchWsCloser (renderStrChars t) = none := by
  intro t
  induction t with
  | nil => intro _; rfl
  | cons c t2 ih =>
    intro h
    unfold renderStrChars
    by_cases hesc : (c = '"' || c = '\\') = true
    · rw [if_pos hesc, matchWsCloser_cons_nonws _ (by decide)]
      rfl
    · rw [if_neg hesc]
      cases hw : isReSpace c with
      | true =>
        rw [matchWsCloser_cons_ws _ hw] at h
        rw [matchWsCloser_cons_ws _ hw]
        exact ih h
      | false =>
        rw [matchWsCloser_cons_nonws _ hw] at h
        rw [matchWsCloser_cons_nonws _ hw]
        by_cases hcl : isCloser c = true
        · rw [if_pos hcl] at h; cases h
        · rw [if_neg hcl]

theorem hasTC_renderStr :
    ∀ cs : List Char, hasTC cs = false → hasTC (renderStrChars cs) = false := by
  intro cs
  induction cs with
  | nil => intro _; rfl
  | cons c t ih =>
    intro h
    rw [hasTC_cons] at h
    rcases Bool.or_eq_false_iff.mp h with ⟨h1, h2⟩
    unfold renderStrChars
    by_cases hesc : (c = '"' || c = '\\') = true
    · rw [if_pos hesc]
      rw [hasTC_cons, hasTC_cons, ih h2]
      have hc : c ≠ ',' := by
        rcases Bool.or_eq_true_iff.mp hesc with h3 | h3
        · rw [decide_eq_true_eq] at h3; subst h3; decide
        · rw [decide_eq_true_eq] at h3; subst h3; decide
      simp [hc]
    · rw [if_neg hesc]
      rw [hasTC_cons, ih h2]
      by_cases hc : c = ','
      · subst hc
        have hmw : matchWsCloser t = none := by
          rcases Bool.and_eq_false_iff.mp h1 with h3 | h3
          · simp at h3
          · exact Option.not_isSome_iff_eq_none.mp (by rw [h3]; exact Bool.false_ne_true)
        simp [matchWsCloser_renderStr t hmw]
      · simp [hc]

mutual

theorem hasTC_renderV : (v : JVal) → strsOKv v = true → hasTC (renderV v) = false
  | .jnull => fun _ => by decide
  | .jbool b => fun _ => by cases b <;> decide
  | .jnum n => fun _ => by
    show hasTC (renderInt n) = false
    exact hasTC_renderInt n
  | .jstr s => fun h => by
    simp only [strsOKv, strOKchars] at h
    have hs : hasTC s = false := by
      rw [Bool.and_eq_true] at h
      rcases h with ⟨_, h2⟩
      cases hts : hasTC s with
      | false => rfl
      | true => rw [hts] at h2; cases h2
    have hbody : hasTC (renderStrChars s ++ ['"']) = false :=
      hasTC_append _ _ (hasTC_renderStr s hs) (by decide) (fun _ => by decide)
    show hasTC ('"' :: (renderStrChars s ++ ['"'])) = false
    rw [hasTC_cons, hbody]
    simp
  | .jarr xs => fun h => by
    simp only [strsOKv] at h
    have hntc : ¬ tailCommaWs (renderElems xs) := by
      rcases renderElems_last xs with hnil | ⟨_, c, hcl, hcw, hcc⟩
      · subst hnil; exact not_tailCommaWs_nil
      · exact not_tailCommaWs_of_last hcl hcw hcc
    have hbody : hasTC (renderElems xs ++ [']']) = false :=
      hasTC_append _ _ (hasTC_renderElems xs h) (by decide)
        (fun htc => absurd htc hntc)
    show hasTC ('[' :: (renderElems xs ++ [']'])) = false
    rw [hasTC_cons, hbody]
    simp
  | .jobj fs => fun h => by
    simp only [strsOKv] at h
    have hntc : ¬ tailCommaWs (renderMembers fs) := by
      rcases renderMembers_last fs with hnil | ⟨_, c, hcl, hcw, hcc⟩
      · subst hnil; exact not_tailCommaWs_nil
      · exact not_tailCommaWs_of_last hcl hcw hcc
    have hbody : hasTC (renderMembers fs ++ ['}']) = false :=
      hasTC_append _ _ (hasTC_renderMembers fs h) (by decide)
        (fun htc => absurd htc hntc)
    show hasTC ('{' :: (renderMembers fs ++ ['}'])) = false
    rw [hasTC_cons, hbody]
    simp
termination_by structural v => v

theorem hasTC_renderElems : (xs : JArr) → strsOKelems xs = true → hasTC (renderElems xs) = false
  | .nil => fun _ => by decide
  | .cons v t => fun h => by
    simp only [strsOKelems, Bool.and_eq_true] at h
    rcases h with ⟨hv, ht⟩
    cases t with
    | nil =>
      have he : renderElems (.cons v .nil) = renderV v := by simp [renderElems]
      rw [he]
      exact hasTC_renderV v hv
    | cons v2 t2 =>
      have he : renderElems (.cons v (.cons v2 t2)) =
          renderV v ++ ',' :: ' ' :: renderElems (.cons v2 t2) := by
        simp [renderElems]
      rw [he]
      have hmw : matchWsCloser (renderElems (.cons v2 t2)) = none := by
        obtain ⟨c0, t0, hv2, _, hre0, hcl0, _⟩ := renderV_head v2
        have hex : ∃ S, renderElems (.cons v2 t2) = renderV v2 ++ S := by
          cases t2 with
          | nil => exact ⟨[], by simp [renderElems]⟩
          | cons a b => exact ⟨',' :: ' ' :: renderElems (.cons a b), by simp [renderElems]⟩
        obtain ⟨S, hS⟩ := hex
        rw [hS, hv2, List.cons_append, matchWsCloser_cons_nonws _ hre0,
          if_neg (fun hcl => by rw [hcl0] at hcl; cases hcl)]
      have hb : hasTC (',' :: ' ' :: renderElems (.cons v2 t2)) = false := by
        rw [hasTC_cons, hasTC_cons, hasTC_renderElems (.cons v2 t2) ht,
          matchWsCloser_cons_ws _ (by decide), hmw]
        simp
      have hntc : ¬ tailCommaWs (renderV v) := by
        obtain ⟨c, hcl, hcw, hcc⟩ := renderV_last v
        exact not_tailCommaWs_of_last hcl hcw hcc
      exact hasTC_append _ _ (hasTC_renderV v hv) hb (fun htc => absurd htc hntc)
termination_by structural xs => xs

theorem hasTC_renderMembers : (fs : JObj) → strsOKmembers fs = true → hasTC (renderMembers fs) = false
  | .nil => fun _ => by decide
  | .cons k v t => fun h => by
    simp only [strsOKmembers, Bool.and_eq_true] at h
    rcases h with ⟨⟨hk, hv⟩, ht⟩
    have hks : hasTC k = false := by
      simp only [strOKchars, Bool.and_eq_true] at hk
      rcases hk with ⟨_, h2⟩
      cases hts : hasTC k with
      | false => rfl
      | true => rw [hts] at h2; cases h2
    have hM : hasTC ('"' :: (renderStrChars k ++ '"' :: ':' :: ' ' :: renderV v)) = false := by
      have htail : hasTC ('"' :: ':' :: ' ' :: renderV v) = false := by
        rw [hasTC_cons, hasTC_cons, hasTC_cons, hasTC_renderV v hv]
        simp
      have hbody : hasTC (renderStrChars k ++ '"' :: ':' :: ' ' :: renderV v) = false :=
        hasTC_append _ _ (hasTC_renderStr k hks) htail
          (fun _ => by
            rw [matchWsCloser_cons_nonws _ (by decide)]
            rfl)
      rw [hasTC_cons, hbody]
      simp
    cases t with
    | nil =>
      have he : renderMembers (.cons k v .nil) =
          ('"' :: (renderStrChars k ++ '"' :: ':' :: ' ' :: renderV v)) := by
        simp [renderMembers]
      rw [he]
      exact hM
    | cons k2 v2 t2 =>
      have he : renderMembers (.cons k v (.cons k2 v2 t2)) =
          ('"' :: (renderStrChars k ++ '"' :: ':' :: ' ' :: renderV v)) ++
            ',' :: ' ' :: renderMembers (.cons k2 v2 t2) := by
        simp [renderMembers]
      rw [he]
      have hmw : matchWsCloser (renderMembers (.cons k2 v2 t2)) = none := by
        have hex : ∃ S, renderMembers (.cons k2 v2 t2) =
            ('"' :: (renderStrChars k2 ++ '"' :: ':' :: ' ' :: renderV v2)) ++ S := by
          cases t2 with
          | nil => exact ⟨[], by simp [renderMembers]⟩
          | cons a b c => exact ⟨',' :: ' ' :: renderMembers (.cons a b c), by simp [renderMembers]⟩
        obtain ⟨S, hS⟩ := hex
        rw [hS, List.cons_append, matchWsCloser_cons_nonws _ (by decide)]
        rfl
      have hb : hasTC (',' :: ' ' :: renderMembers (.cons k2 v2 t2)) = false := by
        rw [hasTC_cons, hasTC_cons, hasTC_renderMembers (.cons k2 v2 t2) ht,
          matchWsCloser_cons_ws _ (by decide), hmw]
        simp
      have hntc : ¬ tailCommaWs ('"' :: (renderStrChars k ++ '"' :: ':' :: ' ' :: renderV v)) := by
        obtain ⟨c0, t0, hv0, _, _, _, _⟩ := renderV_head v
        have hvne : renderV v ≠ [] := by rw [hv0]; exact List.cons_ne_nil _ _
        obtain ⟨c, hcl, hcw, hcc⟩ := renderV_last v
        apply not_tailCommaWs_of_last (c := c) _ hcw hcc
        rw [show ('"' :: (renderStrChars k ++ '"' :: ':' :: ' ' :: renderV v)) =
          ('"' :: renderStrChars k ++ ['"', ':', ' ']) ++ renderV v from by simp]
        rw [List.getLast?_append_of_ne_nil _ hvne]
        exact hcl
      exact hasTC_append _ _ hM hb (fun htc => absurd htc hntc)
termination_by structural fs => fs

end

/-! ### `clean_json_str` is the identity on match-free strings -/

theorem subTCAux_id :
    ∀ rest : List Char, hasTC rest = false →
      subTCAux none rest = rest ∧
      (matchWsCloser rest = none →
        ∀ acc, subTCAux (some acc) rest = ',' :: acc.reverse ++ rest) := by
  intro rest
  induction rest with
  | nil =>
    intro _
    exact ⟨rfl, fun _ acc => by simp [subTCAux]⟩
  | cons c t ih =>
    intro h
    rw [hasTC_cons] at h
    rcases Bool.or_eq_false_iff.mp h with ⟨h1, h2⟩
    obtain ⟨ih1, ih2⟩ := ih h2
    constructor
    · show (if c = ',' then subTCAux (some []) t else c :: subTCAux none t) = c :: t
      by_cases hc : c = ','
      · subst hc
        have hmw : matchWsCloser t = none := by
          rcases Bool.and_eq_false_iff.mp h1 with h3 | h3
          · simp at h3
          · exact Option.not_isSome_iff_eq_none.mp (by rw [h3]; exact Bool.false_ne_true)
        rw [if_pos rfl, ih2 hmw []]
        rfl
      · rw [if_neg hc, ih1]
    · intro hm acc
      cases hw : isReSpace c with
      | true =>
        rw [matchWsCloser_cons_ws _ hw] at hm
        show (if isReSpace c = true then subTCAux (some (c :: acc)) t
          else if isCloser c = true then c :: subTCAux none t
          else ',' :: (acc.reverse ++
            (if c = ',' then subTCAux (some []) t else c :: subTCAux none t))) =
          ',' :: acc.reverse ++ c :: t
        rw [if_pos hw, ih2 hm (c :: acc)]
        simp
      | false =>
        rw [matchWsCloser_cons_nonws _ hw] at hm
        have hcl : isCloser c = false := by
          cases hb : isCloser c
          · rfl
          · rw [if_pos hb] at hm; cases hm
        show (if isReSpace c = true then subTCAux (some (c :: acc)) t
          else if isCloser c = true then c :: subTCAux none t
          else ',' :: (acc.reverse ++
            (if c = ',' then subTCAux (some []) t else c :: subTCAux none t))) =
          ',' :: acc.reverse ++ c :: t
        rw [if_neg (by rw [hw]; exact Bool.false_ne_true),
          if_neg (by rw [hcl]; exact Bool.false_ne_true)]
        by_cases hc : c = ','
        · subst hc
          have hmw : matchWsCloser t = none := by
            rcases Bool.and_eq_false_iff.mp h1 with h3 | h3
            · simp at h3
            · exact Option.not_isSome_iff_eq_none.mp (by rw [h3]; exact Bool.false_ne_true)
          rw [if_pos rfl, ih2 hmw []]
          simp
        · rw [if_neg hc, ih1]
          simp

theorem subTrailingComma_eq_self {s : List Char} (h : hasTC s = false) :
    subTrailingComma s = s := (subTCAux_id s h).1

theorem upToLastCloser_of_last_closer :
    ∀ s : List Char, ∀ c, s.getLast? = some c → isCloser c = true →
      upToLastCloser s = some s := by
  intro s
  induction s with
  | nil => intro c hc _; cases hc
  | cons c0 rest ih =>
    intro c hc hcl
    cases rest with
    | nil =>
      have : c0 = c := by
        rw [List.getLast?_singleton] at hc
        exact Option.some.inj hc
      subst this
      show (match upToLastCloser [] with
        | some t => some (c0 :: t)
        | none => if isCloser c0 then some [c0] else none) = some [c0]
      rw [show upToLastCloser [] = none from rfl]
      simp [hcl]
    | cons r1 r2 =>
      rw [show (c0 :: r1 :: r2) = [c0] ++ r1 :: r2 from rfl,
        List.getLast?_append_of_ne_nil _ (List.cons_ne_nil _ _)] at hc
      have hrec := ih c hc hcl
      show (match upToLastCloser (r1 :: r2) with
        | some t => some (c0 :: t)
        | none => if isCloser c0 then some [c0] else none) = some (c0 :: r1 :: r2)
      rw [hrec]

theorem cleanJsonStr_renderObj {fs : JObj} (h : strsOKmembers fs = true) :
    cleanJsonStr (renderV (.jobj fs)) = renderV (.jobj fs) := by
  have hok : strsOKv (.jobj fs) = true := h
  have hsub : subTrailingComma (renderV (.jobj fs)) = renderV (.jobj fs) :=
    subTrailingComma_eq_self (hasTC_renderV _ hok)
  have hlast : (renderV (.jobj fs)).getLast? = some '}' := by
    show ('{' :: (renderMembers fs ++ ['}'])).getLast? = some '}'
    rw [show ('{' :: (renderMembers fs ++ ['}'])) =
      ('{' :: renderMembers fs) ++ ['}'] from by simp, List.getLast?_concat]
  unfold cleanJsonStr
  rw [hsub]
  show (match upToLastCloser (renderV (.jobj fs)) with
    | some t => t
    | none => renderV (.jobj fs)) = renderV (.jobj fs)
  rw [upToLastCloser_of_last_closer _ '}' hlast (by decide)]

/-! ### Round trip: parsing the rendered value -/

theorem dropLit_self : ∀ lit s : List Char, dropLit lit (lit ++ s) = some s := by
  intro lit
  induction lit with
  | nil => intro s; rfl
  | cons c t ih =>
    intro s
    show (if c = c then dropLit t (t ++ s) else none) = some s
    rw [if_pos rfl, ih]

theorem one_le_sizeV : ∀ v : JVal, 1 ≤ sizeV v := by
  intro v
  cases v <;> simp [sizeV]

theorem headNotDigit_cons {c : Char} (h : c.isDigit = false) (t : List Char) :
    headNotDigit (c :: t) := by
  intro c' hc'
  rw [show c' = c from (Option.some.inj hc').symm]
  exact h

theorem strOKchars_ge32 {s : List Char} (h : strOKchars s = true) :
    ∀ c ∈ s, 32 ≤ c.toNat := by
  intro c hc
  simp only [strOKchars, Bool.and_eq_true] at h
  have h2 := List.all_eq_true.mp h.1 c hc
  have h3 : (decide (32 ≤ c.toNat) && decide (c.toNat ≤ 126)) = true := by simpa using h2
  rw [Bool.and_eq_true] at h3
  simpa using h3.1

theorem not_closer_ne {c : Char} (h : isCloser c = false) : c ≠ '}' ∧ c ≠ ']' := by
  constructor
  · intro he; subst he; cases h
  · intro he; subst he; cases h

theorem parseF_render :
    ∀ fuel : Nat,
      (∀ (v : JVal) (rest : List Char), sizeV v ≤ fuel → strsOKv v = true →
        headNotDigit rest →
        parseF fuel .val (renderV v ++ rest) = some (.rv v, rest)) ∧
      (∀ (xs : JArr) (rest : List Char), xs ≠ .nil → sizeElems xs ≤ fuel →
        strsOKelems xs = true →
        parseF fuel .elems (renderElems xs ++ ']' :: rest) = some (.ra xs, rest)) ∧
      (∀ (fs : JObj) (rest : List Char), fs ≠ .nil → sizeMembers fs ≤ fuel →
        strsOKmembers fs = true →
        parseF fuel .members (renderMembers fs ++ '}' :: rest) = some (.ro fs, rest)) := by
  intro fuel
  induction fuel with
  | zero =>
    refine ⟨?_, ?_, ?_⟩
    · intro v rest hsz _ _
      exact absurd hsz (by have := one_le_sizeV v; omega)
    · intro xs rest hne hsz _
      cases xs with
      | nil => exact absurd rfl hne
      | cons v t =>
        exfalso
        have := one_le_sizeV v
        simp only [sizeElems] at hsz
        omega
    · intro fs rest hne hsz _
      cases fs with
      | nil => exact absurd rfl hne
      | cons k v t =>
        exfalso
        have := one_le_sizeV v
        simp only [sizeMembers] at hsz
        omega
  | succ f ih =>
    obtain ⟨ihv, ihe, ihm⟩ := ih
    refine ⟨?_, ?_, ?_⟩
    · intro v rest hsz hok hrest
      cases v with
      | jnull =>
        rw [show renderV .jnull ++ rest = 'n' :: ('u' :: 'l' :: 'l' :: rest) from rfl,
          parseF_val_litn,
          show ('u' :: 'l' :: 'l' :: rest) = ['u', 'l', 'l'] ++ rest from rfl,
          dropLit_self]
      | jbool b =>
        cases b with
        | true =>
          rw [show renderV (.jbool true) ++ rest =
              't' :: ('r' :: 'u' :: 'e' :: rest) from rfl,
            parseF_val_litt,
            show ('r' :: 'u' :: 'e' :: rest) = ['r', 'u', 'e'] ++ rest from rfl,
            dropLit_self]
        | false =>
          rw [show renderV (.jbool false) ++ rest =
              'f' :: ('a' :: 'l' :: 's' :: 'e' :: rest) from rfl,
            parseF_val_litf,
            show ('a' :: 'l' :: 's' :: 'e' :: rest) = ['a', 'l', 's', 'e'] ++ rest from rfl,
            dropLit_self]
      | jnum n =>
        rw [show renderV (.jnum n) = renderInt n from rfl]
        exact parseF_val_renderInt f n rest hrest
      | jstr s =>
        have h32 : ∀ c ∈ s, 32 ≤ c.toNat := strOKchars_ge32 (by simpa [strsOKv] using hok)
        rw [show renderV (.jstr s) ++ rest = '"' :: (renderStrChars s ++ '"' :: rest) from by
          simp [renderV], parseF_val_quote, parseStrRest_render s rest h32]
      | jarr xs =>
        have hokE : strsOKelems xs = true := by simpa [strsOKv] using hok
        rw [show renderV (.jarr xs) ++ rest = '[' :: (renderElems xs ++ ']' :: rest) from by
          simp [renderV], parseF_val_lbrack]
        cases xs with
        | nil =>
          rw [show renderElems .nil ++ ']' :: rest = ']' :: rest from rfl,
            skipWs_cons_of_neg (by decide)]
          dsimp only
          rw [if_pos rfl]
        | cons v t =>
          obtain ⟨c0, t0, hv0, hj0, _, hcl0, _⟩ := renderV_head v
          obtain ⟨S, hS⟩ : ∃ S, renderElems (.cons v t) = c0 :: S := by
            cases t with
            | nil => exact ⟨t0, by simp [renderElems, hv0]⟩
            | cons a b =>
              exact ⟨t0 ++ ',' :: ' ' :: renderElems (.cons a b), by simp [renderElems, hv0]⟩
          have hne2 : c0 ≠ ']' := (not_closer_ne hcl0).2
          rw [hS, List.cons_append, skipWs_cons_of_neg hj0]
          dsimp only
          rw [if_neg hne2]
          have hrec : parseF f .elems (renderElems (.cons v t) ++ ']' :: rest) =
              some (.ra (.cons v t), rest) := by
            apply ihe _ rest (fun h => by cases h) ?_ hokE
            simp only [sizeV] at hsz
            omega
          rw [show c0 :: (S ++ ']' :: rest) = renderElems (.cons v t) ++ ']' :: rest from by
            rw [hS]; rfl, hrec]
      | jobj fs =>
        have hokM : strsOKmembers fs = true := by simpa [strsOKv] using hok
        rw [show renderV (.jobj fs) ++ rest = '{' :: (renderMembers fs ++ '}' :: rest) from by
          simp [renderV], parseF_val_lbrace]
        cases fs with
        | nil =>
          rw [show renderMembers .nil ++ '}' :: rest = '}' :: rest from rfl,
            skipWs_cons_of_neg (by decide)]
          dsimp only
          rw [if_pos rfl]
        | cons k v t =>
          obtain ⟨S, hS⟩ : ∃ S, renderMembers (.cons k v t) = '"' :: S := by
            cases t with
            | nil =>
              exact ⟨renderStrChars k ++ '"' :: ':' :: ' ' :: renderV v, by
                simp [renderMembers]⟩
            | cons a b c =>
              exact ⟨(renderStrChars k ++ '"' :: ':' :: ' ' :: renderV v) ++
                ',' :: ' ' :: renderMembers (.cons a b c), by simp [renderMembers]⟩
          rw [hS, List.cons_append, skipWs_cons_of_neg (by decide)]
          dsimp only
          rw [if_neg (show ('"' : Char) ≠ '}' by decide)]
          have hrec : parseF f .members (renderMembers (.cons k v t) ++ '}' :: rest) =
              some (.ro (.cons k v t), rest) := by
            apply ihm _ rest (fun h => by cases h) ?_ hokM
            simp only [sizeV] at hsz
            omega
          rw [show '"' :: (S ++ '}' :: rest) = renderMembers (.cons k v t) ++ '}' :: rest from by
            rw [hS]; rfl, hrec]
    · intro xs rest hne hsz hok
      cases xs with
      | nil => exact absurd rfl hne
      | cons v t =>
        have hok2 : strsOKv v = true ∧ strsOKelems t = true := by
          simpa [strsOKelems, Bool.and_eq_true] using hok
        cases t with
        | nil =>
          rw [show renderElems (.cons v .nil) ++ ']' :: rest = renderV v ++ ']' :: rest from by
            simp [renderElems]]
          have hval : parseF f .val (renderV v ++ ']' :: rest) = some (.rv v, ']' :: rest) := by
            apply ihv v (']' :: rest) ?_ hok2.1 (headNotDigit_cons (by decide) rest)
            simp only [sizeElems] at hsz
            omega
          simp only [parseF]
          rw [hval]
          dsimp only
          rw [skipWs_cons_of_neg (by decide)]
          dsimp only
          rw [if_neg (show (']' : Char) ≠ ',' by decide), if_pos rfl]
        | cons v2 t2 =>
          rw [show renderElems (.cons v (.cons v2 t2)) ++ ']' :: rest =
              renderV v ++ (',' :: ' ' :: (renderElems (.cons v2 t2) ++ ']' :: rest)) from by
            simp [renderElems]]
          have hval : parseF f .val
              (renderV v ++ (',' :: ' ' :: (renderElems (.cons v2 t2) ++ ']' :: rest))) =
              some (.rv v, ',' :: ' ' :: (renderElems (.cons v2 t2) ++ ']' :: rest)) := by
            apply ihv v _ ?_ hok2.1 (headNotDigit_cons (by decide) _)
            have h1 := one_le_sizeV v2
            simp only [sizeElems] at hsz
            omega
          simp only [parseF]
          rw [hval]
          dsimp only
          rw [skipWs_cons_of_neg (by decide)]
          dsimp only
          rw [if_pos rfl, parseF_elems_space]
          have hrec : parseF f .elems (renderElems (.cons v2 t2) ++ ']' :: rest) =
              some (.ra (.cons v2 t2), rest) := by
            apply ihe _ rest (fun h => by cases h) ?_ hok2.2
            have h1 := one_le_sizeV v
            simp only [sizeElems] at hsz ⊢
            omega
          rw [hrec]
    · intro fs rest hne hsz hok
      cases fs with
      | nil => exact absurd rfl hne
      | cons k v t =>
        have hok2 : (strOKchars k = true ∧ strsOKv v = true) ∧ strsOKmembers t = true := by
          simpa [strsOKmembers, Bool.and_eq_true, and_assoc] using hok
        have h32k : ∀ c ∈ k, 32 ≤ c.toNat := strOKchars_ge32 hok2.1.1
        cases t with
        | nil =>
          rw [show renderMembers (.cons k v .nil) ++ '}' :: rest =
              '"' :: (renderStrChars k ++
                '"' :: (':' :: ' ' :: (renderV v ++ '}' :: rest))) from by
            simp [renderMembers]]
          have hval : parseF f .val (renderV v ++ '}' :: rest) = some (.rv v, '}' :: rest) := by
            apply ihv v ('}' :: rest) ?_ hok2.1.2 (headNotDigit_cons (by decide) rest)
            simp only [sizeMembers] at hsz
            omega
          simp only [parseF]
          rw [skipWs_cons_of_neg (by decide)]
          dsimp only
          rw [if_pos rfl, parseStrRest_render k _ h32k]
          dsimp only
          rw [skipWs_cons_of_neg (by decide)]
          dsimp only
          rw [if_pos rfl, parseF_val_space, hval]
          dsimp only
          rw [skipWs_cons_of_neg (by decide)]
          dsimp only
          rw [if_neg (show ('}' : Char) ≠ ',' by decide), if_pos rfl]
        | cons k2 v2 t2 =>
          rw [show renderMembers (.cons k v (.cons k2 v2 t2)) ++ '}' :: rest =
              '"' :: (renderStrChars k ++
                '"' :: (':' :: ' ' :: (renderV v ++
                  (',' :: ' ' :: (renderMembers (.cons k2 v2 t2) ++ '}' :: rest))))) from by
            simp [renderMembers]]
          have hval : parseF f .val
              (renderV v ++ (',' :: ' ' :: (renderMembers (.cons k2 v2 t2) ++ '}' :: rest))) =
              some (.rv v, ',' :: ' ' :: (renderMembers (.cons k2 v2 t2) ++ '}' :: rest)) := by
            apply ihv v _ ?_ hok2.1.2 (headNotDigit_cons (by decide) _)
            have h1 := one_le_sizeV v2
            simp only [sizeMembers] at hsz
            omega
          simp only [parseF]
          rw [skipWs_cons_of_neg (by decide)]
          dsimp only
          rw [if_pos rfl, parseStrRest_render k _ h32k]
          dsimp only
          rw [skipWs_cons_of_neg (by decide)]
          dsimp only
          rw [if_pos rfl, parseF_val_space, hval]
          dsimp only
          rw [skipWs_cons_of_neg (by decide)]
          dsimp only
          rw [if_pos rfl, parseF_members_space]
          have hrec : parseF f .members (renderMembers (.cons k2 v2 t2) ++ '}' :: rest) =
              some (.ro (.cons k2 v2 t2), rest) := by
            apply ihm _ rest (fun h => by cases h) ?_ hok2.2
            have h1 := one_le_sizeV v
            simp only [sizeMembers] at hsz ⊢
            omega
          rw [hrec]

theorem renderInt_ne_nil (n : Int) : renderInt n ≠ [] := by
  unfold renderInt
  by_cases hn : n < 0
  · rw [if_pos hn]
    exact List.cons_ne_nil _ _
  · rw [if_neg hn]
    exact (natToChars_spec n.toNat).2.1

mutual

theorem sizeV_le_length : (v : JVal) → sizeV v ≤ (renderV v).length
  | .jnull => by decide
  | .jbool b => by cases b <;> decide
  | .jnum n => by
    show 1 ≤ (renderInt n).length
    have h := renderInt_ne_nil n
    cases he : renderInt n with
    | nil => exact absurd he h
    | cons a b => simp
  | .jstr s => by
    show 1 ≤ ('"' :: (renderStrChars s ++ ['"'])).length
    simp
  | .jarr xs => by
    have h := sizeElems_le_length xs
    show 1 + sizeElems xs ≤ ('[' :: (renderElems xs ++ [']'])).length
    simp only [List.length_cons, List.length_append]
    omega
  | .jobj fs => by
    have h := sizeMembers_le_length fs
    show 1 + sizeMembers fs ≤ ('{' :: (renderMembers fs ++ ['}'])).length
    simp only [List.length_cons, List.length_append]
    omega
termination_by structural v => v

theorem sizeElems_le_length : (xs : JArr) → sizeElems xs ≤ (renderElems xs).length + 1
  | .nil => by simp [sizeElems]
  | .cons v t => by
    have hv := sizeV_le_length v
    cases t with
    | nil =>
      rw [show renderElems (.cons v .nil) = renderV v from by simp [renderElems]]
      simp only [sizeElems]
      omega
    | cons a b =>
      have ht := sizeElems_le_length (.cons a b)
      rw [show renderElems (.cons v (.cons a b)) =
        renderV v ++ ',' :: ' ' :: renderElems (.cons a b) from by simp [renderElems]]
      simp only [sizeElems, List.length_append, List.length_cons] at ht ⊢
      omega
termination_by structural xs => xs

theorem sizeMembers_le_length : (fs : JObj) → sizeMembers fs ≤ (renderMembers fs).length + 1
  | .nil => by simp [sizeMembers]
  | .cons k v t => by
    have hv := sizeV_le_length v
    cases t with
    | nil =>
      rw [show renderMembers (.cons k v .nil) =
        '"' :: (renderStrChars k ++ '"' :: ':' :: ' ' :: renderV v) from by simp [renderMembers]]
      simp only [sizeMembers, List.length_cons, List.length_append]
      omega
    | cons a b c =>
      have ht := sizeMembers_le_length (.cons a b c)
      rw [show renderMembers (.cons k v (.cons a b c)) =
        ('"' :: (renderStrChars k ++ '"' :: ':' :: ' ' :: renderV v)) ++
          ',' :: ' ' :: renderMembers (.cons a b c) from by simp [renderMembers]]
      simp only [sizeMembers, List.length_cons, List.length_append] at ht ⊢
      omega
termination_by structural fs => fs

end

theorem pyStrip_eq_self {s : List Char}
    (h1 : ∀ c, s.head? = some c → isPySpace c = false)
    (h2 : ∀ c, s.getLast? = some c → isPySpace c = false) :
    pyStrip s = s := by
  unfold pyStrip
  have hd : s.dropWhile isPySpace = s := by
    cases s with
    | nil => rfl
    | cons c t =>
      exact List.dropWhile_cons_of_neg (by rw [h1 c rfl]; exact Bool.false_ne_true)
  rw [hd]
  have hd2 : s.reverse.dropWhile isPySpace = s.reverse := by
    cases hr : s.reverse with
    | nil => rfl
    | cons c t =>
      have hc : s.getLast? = some c := by rw [← List.head?_reverse, hr]; rfl
      exact List.dropWhile_cons_of_neg (by rw [h2 c hc]; exact Bool.false_ne_true)
  rw [hd2, List.reverse_reverse]

theorem jsonLoads_renderV {v : JVal} (h : strsOKv v = true) :
    jsonLoads (renderV v) = some v := by
  have hp := (parseF_render ((renderV v).length + 1)).1 v []
    (by have := sizeV_le_length v; omega) h (fun c hc => by cases hc)
  rw [List.append_nil] at hp
  unfold jsonLoads
  rw [hp]
  rfl

theorem coerceJson_renderObj {fs : JObj} (h : strsOKmembers fs = true) :
    coerceJson (renderV (.jobj fs)) = .ok (.jobj fs) := by
  have hhead : (renderV (.jobj fs)).head? = some '{' := rfl
  have hlast : (renderV (.jobj fs)).getLast? = some '}' := by
    show ('{' :: (renderMembers fs ++ ['}'])).getLast? = some '}'
    rw [show ('{' :: (renderMembers fs ++ ['}'])) =
      ('{' :: renderMembers fs) ++ ['}'] from by simp, List.getLast?_concat]
  have hstrip : pyStrip (renderV (.jobj fs)) = renderV (.jobj fs) :=
    pyStrip_eq_self
      (fun c hc => by rw [hhead] at hc; cases hc; decide)
      (fun c hc => by rw [hlast] at hc; cases hc; decide)
  have hse : startsEndsBrace (renderV (.jobj fs)) = true := by
    simp [startsEndsBrace, hhead, hlast]
  unfold coerceJson
  rw [hstrip]
  show (match (if startsEndsBrace (renderV (.jobj fs)) = true
      then some (renderV (.jobj fs)) else searchBrace (renderV (.jobj fs))) with
    | none => (Except.error CoerceError.extraction : Except CoerceError JVal)
    | some cand =>
      match jsonLoads (cleanJsonStr cand) with
      | some v => Except.ok v
      | none => Except.error (CoerceError.parse (cleanJsonStr cand))) =
    Except.ok (JVal.jobj fs)
  rw [hse, if_pos rfl]
  show (match jsonLoads (cleanJsonStr (renderV (.jobj fs))) with
    | some v => (Except.ok v : Except CoerceError JVal)
    | none => Except.error (CoerceError.parse (cleanJsonStr (renderV (.jobj fs))))) =
    Except.ok (JVal.jobj fs)
  rw [cleanJsonStr_renderObj h, jsonLoads_renderV (show strsOKv (.jobj fs) = true from h)]

/-- C6: for every input on which `coerceJson` succeeds with object `o`
(every success of the code is an object), re-coercing the `json.dumps`
serialization of `o` returns `o` again — provided the string literals of
`o` are printable ASCII and contain no substring matching the repair
regex `,\s*[}\]]` (without that proviso the claim fails, see the
counterexample: `clean_json_str` corrupts such strings). -/
theorem c6_roundtrip (s : List Char) (fs : JObj)
    (hsucc : coerceJson s = .ok (.jobj fs))
    (hstr : strsOKmembers fs = true) :
    coerceJson (renderV (.jobj fs)) = .ok (.jobj fs) := by
  have _ := hsucc
  exact coerceJson_renderObj hstr

theorem c6_witness :
    coerceJson (("\x7b\"a\": 1\x7d").data) =
      .ok (.jobj (.cons ['a'] (.jnum 1) .nil)) ∧
    strsOKmembers (.cons ['a'] (.jnum 1) .nil) = true ∧
    coerceJson (renderV (.jobj (.cons ['a'] (.jnum 1) .nil))) =
      .ok (.jobj (.cons ['a'] (.jnum 1) .nil)) :=
  ⟨by rfl, by rfl,
    c6_roundtrip (("\x7b\"a\": 1\x7d").data) (.cons ['a'] (.jnum 1) .nil)
      (by rfl) (by rfl)⟩

/-- C6 counterexample: the input `\x7b"a": ",,,\x7d"\x7d` is coerced
successfully (to the object with the already-corrupted string value
`,,\x7d`, since `clean_json_str` rewrites inside the literal), but
re-coercing the serialization of that object corrupts the string again,
yielding a different object: the round trip is not the identity. -/
theorem c6_counterexample :
    coerceJson (("\x7b\"a\": \",,,\x7d\"\x7d").data) =
      .ok (.jobj (.cons ['a'] (.jstr [',', ',', '\x7d']) .nil)) ∧
    coerceJson (renderV (.jobj (.cons ['a'] (.jstr [',', ',', '\x7d']) .nil))) =
      .ok (.jobj (.cons ['a'] (.jstr [',', '\x7d']) .nil)) ∧
    (JVal.jobj (.cons ['a'] (.jstr [',', '\x7d']) .nil)) ≠
      (JVal.jobj (.cons ['a'] (.jstr [',', ',', '\x7d']) .nil)) :=
  ⟨by rfl, by rfl, by simp⟩

/-! ### Locating an embedded object: `re.search` decomposition lemmas -/

theorem upToLastRB_append :
    ∀ x y : List Char, upToLastRB (x ++ y) =
      match upToLastRB y with
      | some t => some (x ++ t)
      | none => upToLastRB x := by
  intro x
  induction x with
  | nil =>
    intro y
    cases hy : upToLastRB y with
    | some t => simp [hy]
    | none => simp [hy, upToLastRB]
  | cons c t ih =>
    intro y
    show (match upToLastRB (t ++ y) with
      | some u => some (c :: u)
      | none => if c = '}' then some [c] else none) = _
    rw [ih y]
    cases hy : upToLastRB y with
    | some u =>
      dsimp only
      rw [List.cons_append]
    | none =>
      dsimp only
      rfl

theorem upToLastRB_of_last_rb :
    ∀ s : List Char, s.getLast? = some '}' → upToLastRB s = some s := by
  intro s
  induction s with
  | nil => intro hc; cases hc
  | cons c0 rest ih =>
    intro hc
    cases rest with
    | nil =>
      have : c0 = '}' := by
        rw [List.getLast?_singleton] at hc
        exact Option.some.inj hc
      subst this
      rfl
    | cons r1 r2 =>
      rw [show (c0 :: r1 :: r2) = [c0] ++ r1 :: r2 from rfl,
        List.getLast?_append_of_ne_nil _ (List.cons_ne_nil _ _)] at hc
      have hrec := ih hc
      show (match upToLastRB (r1 :: r2) with
        | some t => some (c0 :: t)
        | none => if c0 = '}' then some [c0] else none) = some (c0 :: r1 :: r2)
      rw [hrec]

theorem searchBrace_append_left :
    ∀ a s : List Char, '{' ∉ a → searchBrace (a ++ s) = searchBrace s := by
  intro a
  induction a with
  | nil => intro s _; rfl
  | cons c t ih =>
    intro s h
    have hc : c ≠ '{' := fun he => h (he ▸ List.mem_cons_self c t)
    show (if c = '{' then
        match upToLastRB (t ++ s) with
        | some u => some (c :: u)
        | none => searchBrace (t ++ s)
      else searchBrace (t ++ s)) = searchBrace s
    rw [if_neg hc, ih s (fun hm => h (List.mem_cons_of_mem c hm))]

theorem coerceJson_congr {a b : List Char} (h : pyStrip a = pyStrip b) :
    coerceJson a = coerceJson b := by
  unfold coerceJson
  rw [h]

theorem pyStrip_append_decomp (pre R post : List Char)
    (hRhead : ∀ c, R.head? = some c → isPySpace c = false)
    (hRlast : ∀ c, R.getLast? = some c → isPySpace c = false)
    (hRne : R ≠ []) :
    pyStrip (pre ++ R ++ post) =
      pre.dropWhile isPySpace ++ R ++ (post.reverse.dropWhile isPySpace).reverse := by
  unfold pyStrip
  have h1 : (pre ++ R ++ post).dropWhile isPySpace =
      pre.dropWhile isPySpace ++ (R ++ post) := by
    rw [List.append_assoc]
    exact dropWhile_append_head pre (R ++ post)
      (fun c hc => hRhead c (by rwa [List.head?_append_of_ne_nil R hRne] at hc))
  rw [h1]
  have h2 : (pre.dropWhile isPySpace ++ (R ++ post)).reverse =
      post.reverse ++ (R.reverse ++ (pre.dropWhile isPySpace).reverse) := by
    simp [List.reverse_append]
  rw [h2]
  have hRrev : R.reverse ≠ [] := by
    intro he
    exact hRne (by simpa using congrArg List.reverse he)
  have h3 : (post.reverse ++ (R.reverse ++ (pre.dropWhile isPySpace).reverse)).dropWhile
      isPySpace = post.reverse.dropWhile isPySpace ++
        (R.reverse ++ (pre.dropWhile isPySpace).reverse) := by
    apply dropWhile_append_head
    intro c hc
    rw [List.head?_append_of_ne_nil R.reverse hRrev, List.head?_reverse] at hc
    exact hRlast c hc
  rw [h3]
  simp

/-! ### Trailing-comma insertions and their repair -/

theorem closer_not_ws {c : Char} (h : isCloser c = true) : isReSpace c = false := by
  rcases Bool.or_eq_true_iff.mp h with h1 | h1 <;>
    (rw [decide_eq_true_eq] at h1; subst h1; decide)

theorem closer_ne_comma {c : Char} (h : isCloser c = true) : c ≠ ',' := by
  rcases Bool.or_eq_true_iff.mp h with h1 | h1 <;>
    (rw [decide_eq_true_eq] at h1; subst h1; decide)

theorem TCIns_refl : ∀ s : List Char, TCIns s s := by
  intro s
  induction s with
  | nil => exact .nil
  | cons c t ih => exact .copy c t t ih

theorem TCIns_nil_iff {s t : List Char} (h : TCIns s t) : s = [] ↔ t = [] := by
  cases h with
  | nil => simp
  | copy c s2 t2 _ => simp
  | ins w c s2 t2 _ _ _ => simp

theorem TCIns_head {s t : List Char} {c : Char} (h : TCIns s t)
    (hs : s.head? = some c) (hc : isCloser c = false) : t.head? = some c := by
  cases h with
  | nil => cases hs
  | copy c2 s2 t2 _ =>
    rw [List.head?_cons] at hs ⊢
    exact hs
  | ins w c2 s2 t2 hcl _ _ =>
    exfalso
    rw [List.head?_cons] at hs
    have he : c2 = c := Option.some.inj hs
    rw [← he, hcl] at hc
    cases hc

theorem TCIns_getLast {s t : List Char} (h : TCIns s t) : t.getLast? = s.getLast? := by
  induction h with
  | nil => rfl
  | copy c s2 t2 hrec ih =>
    by_cases hs : s2 = []
    · subst hs
      have ht : t2 = [] := (TCIns_nil_iff hrec).mp rfl
      subst ht
      rfl
    · have ht : t2 ≠ [] := fun he => hs ((TCIns_nil_iff hrec).mpr he)
      rw [show (c :: t2) = [c] ++ t2 from rfl, List.getLast?_append_of_ne_nil _ ht,
        show (c :: s2) = [c] ++ s2 from rfl, List.getLast?_append_of_ne_nil _ hs, ih]
  | ins w c s2 t2 _ _ hrec ih =>
    rw [show (',' :: (w ++ c :: t2)) = (',' :: w) ++ (c :: t2) from rfl,
      List.getLast?_append_of_ne_nil _ (List.cons_ne_nil _ _)]
    exact ih

theorem subTCAux_ws_closer :
    ∀ w : List Char, (∀ x ∈ w, isReSpace x = true) → ∀ (acc : List Char) (c : Char),
      isCloser c = true → ∀ t, subTCAux (some acc) (w ++ c :: t) = c :: subTCAux none t := by
  intro w
  induction w with
  | nil =>
    intro _ acc c hc t
    show (if isReSpace c = true then subTCAux (some (c :: acc)) t
      else if isCloser c = true then c :: subTCAux none t
      else ',' :: (acc.reverse ++
        (if c = ',' then subTCAux (some []) t else c :: subTCAux none t))) =
      c :: subTCAux none t
    rw [if_neg (by rw [closer_not_ws hc]; exact Bool.false_ne_true), if_pos hc]
  | cons x w2 ih =>
    intro hw acc c hc t
    show (if isReSpace x = true then subTCAux (some (x :: acc)) (w2 ++ c :: t)
      else if isCloser x = true then x :: subTCAux none (w2 ++ c :: t)
      else ',' :: (acc.reverse ++
        (if x = ',' then subTCAux (some []) (w2 ++ c :: t)
         else x :: subTCAux none (w2 ++ c :: t)))) =
      c :: subTCAux none t
    rw [if_pos (hw x (List.mem_cons_self x w2))]
    exact ih (fun y hy => hw y (List.mem_cons_of_mem x hy)) (x :: acc) c hc t

theorem subTCAux_tcins {s t : List Char} (hrel : TCIns s t) :
    hasTC s = false →
      subTCAux none t = s ∧
      (matchWsCloser s = none →
        ∀ acc, subTCAux (some acc) t = ',' :: acc.reverse ++ s) := by
  induction hrel with
  | nil =>
    intro _
    exact ⟨rfl, fun _ acc => by simp [subTCAux]⟩
  | copy c s2 t2 hrec ih =>
    intro h
    rw [hasTC_cons] at h
    rcases Bool.or_eq_false_iff.mp h with ⟨h1, h2⟩
    obtain ⟨ih1, ih2⟩ := ih h2
    constructor
    · show (if c = ',' then subTCAux (some []) t2 else c :: subTCAux none t2) = c :: s2
      by_cases hc : c = ','
      · subst hc
        have hmw : matchWsCloser s2 = none := by
          rcases Bool.and_eq_false_iff.mp h1 with h3 | h3
          · simp at h3
          · exact Option.not_isSome_iff_eq_none.mp (by rw [h3]; exact Bool.false_ne_true)
        rw [if_pos rfl, ih2 hmw []]
        rfl
      · rw [if_neg hc, ih1]
    · intro hm acc
      cases hw : isReSpace c with
      | true =>
        rw [matchWsCloser_cons_ws _ hw] at hm
        show (if isReSpace c = true then subTCAux (some (c :: acc)) t2
          else if isCloser c = true then c :: subTCAux none t2
          else ',' :: (acc.reverse ++
            (if c = ',' then subTCAux (some []) t2 else c :: subTCAux none t2))) =
          ',' :: acc.reverse ++ c :: s2
        rw [if_pos hw, ih2 hm (c :: acc)]
        simp
      | false =>
        rw [matchWsCloser_cons_nonws _ hw] at hm
        have hcl : isCloser c = false := by
          cases hb : isCloser c
          · rfl
          · rw [if_pos hb] at hm; cases hm
        show (if isReSpace c = true then subTCAux (some (c :: acc)) t2
          else if isCloser c = true then c :: subTCAux none t2
          else ',' :: (acc.reverse ++
            (if c = ',' then subTCAux (some []) t2 else c :: subTCAux none t2))) =
          ',' :: acc.reverse ++ c :: s2
        rw [if_neg (by rw [hw]; exact Bool.false_ne_true),
          if_neg (by rw [hcl]; exact Bool.false_ne_true)]
        by_cases hc : c = ','
        · subst hc
          have hmw : matchWsCloser s2 = none := by
            rcases Bool.and_eq_false_iff.mp h1 with h3 | h3
            · simp at h3
            · exact Option.not_isSome_iff_eq_none.mp (by rw [h3]; exact Bool.false_ne_true)
          rw [if_pos rfl, ih2 hmw []]
          simp
        · rw [if_neg hc, ih1]
          simp
  | ins w c s2 t2 hc hw hrec ih =>
    intro h
    obtain ⟨ih1, ih2⟩ := ih h
    have hsub_t : subTCAux none t2 = s2 := by
      have hb : (if c = ',' then subTCAux (some []) t2 else c :: subTCAux none t2) =
          c :: s2 := ih1
      rw [if_neg (closer_ne_comma hc)] at hb
      exact (List.cons.injEq _ _ _ _ ▸ hb).2
    constructor
    · show (if (',' : Char) = ',' then subTCAux (some []) (w ++ c :: t2)
        else ',' :: subTCAux none (w ++ c :: t2)) = c :: s2
      rw [if_pos rfl, subTCAux_ws_closer w hw [] c hc t2, hsub_t]
    · intro hm _
      exfalso
      rw [matchWsCloser_cons_nonws _ (closer_not_ws hc), if_pos hc] at hm
      cases hm

theorem subTrailingComma_tcins {s t : List Char} (hrel : TCIns s t)
    (h : hasTC s = false) : subTrailingComma t = s :=
  (subTCAux_tcins hrel h).1

theorem cleanJsonStr_tcins {fs : JObj} {D : List Char}
    (hrel : TCIns (renderV (.jobj fs)) D) (h : strsOKmembers fs = true) :
    cleanJsonStr D = renderV (.jobj fs) := by
  have hok : strsOKv (.jobj fs) = true := h
  have hsub : subTrailingComma D = renderV (.jobj fs) :=
    subTrailingComma_tcins hrel (hasTC_renderV _ hok)
  have hlast : (renderV (.jobj fs)).getLast? = some '}' := by
    show ('{' :: (renderMembers fs ++ ['}'])).getLast? = some '}'
    rw [show ('{' :: (renderMembers fs ++ ['}'])) =
      ('{' :: renderMembers fs) ++ ['}'] from by simp, List.getLast?_concat]
  unfold cleanJsonStr
  rw [hsub]
  show (match upToLastCloser (renderV (.jobj fs)) with
    | some t => t
    | none => renderV (.jobj fs)) = renderV (.jobj fs)
  rw [upToLastCloser_of_last_closer _ '}' hlast (by decide)]

theorem coerceJson_tcins_renderObj {fs : JObj} {D : List Char}
    (hrel : TCIns (renderV (.jobj fs)) D) (h : strsOKmembers fs = true) :
    coerceJson D = .ok (.jobj fs) := by
  have hRhead : (renderV (.jobj fs)).head? = some '{' := rfl
  have hRlast : (renderV (.jobj fs)).getLast? = some '}' := by
    show ('{' :: (renderMembers fs ++ ['}'])).getLast? = some '}'
    rw [show ('{' :: (renderMembers fs ++ ['}'])) =
      ('{' :: renderMembers fs) ++ ['}'] from by simp, List.getLast?_concat]
  have hDhead : D.head? = some '{' := TCIns_head hrel hRhead (by decide)
  have hDlast : D.getLast? = some '}' := by rw [TCIns_getLast hrel]; exact hRlast
  have hstrip : pyStrip D = D :=
    pyStrip_eq_self
      (fun c hc => by rw [hDhead] at hc; cases hc; decide)
      (fun c hc => by rw [hDlast] at hc; cases hc; decide)
  have hse : startsEndsBrace D = true := by
    simp [startsEndsBrace, hDhead, hDlast]
  unfold coerceJson
  rw [hstrip]
  show (match (if startsEndsBrace D = true
      then some D else searchBrace D) with
    | none => (Except.error CoerceError.extraction : Except CoerceError JVal)
    | some cand =>
      match jsonLoads (cleanJsonStr cand) with
      | some v => Except.ok v
      | none => Except.error (CoerceError.parse (cleanJsonStr cand))) =
    Except.ok (JVal.jobj fs)
  rw [hse, if_pos rfl]
  show (match jsonLoads (cleanJsonStr D) with
    | some v => (Except.ok v : Except CoerceError JVal)
    | none => Except.error (CoerceError.parse (cleanJsonStr D))) =
    Except.ok (JVal.jobj fs)
  rw [cleanJsonStr_tcins hrel h,
    jsonLoads_renderV (show strsOKv (.jobj fs) = true from h)]

/-- C1: a JSON object embedded in surrounding commentary is recovered by
`coerceJson`, with or without trailing commas (a `,` plus optional
whitespace) inserted immediately before closing `\x7d` / `]` characters of
its serialization (`TCIns` relates the clean serialization to the
embedded text) — provided the commentary before the object contains no
`\x7b`, the commentary after it contains no `\x7d`, and the object's string
values are printable ASCII free of the repair-regex pattern `,\s*[}\]]`.
(Without the brace proviso the claim fails: the greedy regex `\{.*\}`
overshoots into brace-bearing commentary, see the counterexample.) -/
theorem c1_embedded_object (pre post D : List Char) (fs : JObj)
    (hrel : TCIns (renderV (.jobj fs)) D)
    (hpre : '{' ∉ pre) (hpost : '}' ∉ post) (hok : strsOKmembers fs = true) :
    coerceJson (pre ++ D ++ post) = .ok (.jobj fs) := by
  have hRhead : (renderV (.jobj fs)).head? = some '{' := rfl
  have hRlast : (renderV (.jobj fs)).getLast? = some '}' := by
    show ('{' :: (renderMembers fs ++ ['}'])).getLast? = some '}'
    rw [show ('{' :: (renderMembers fs ++ ['}'])) =
      ('{' :: renderMembers fs) ++ ['}'] from by simp, List.getLast?_concat]
  have hDhead : D.head? = some '{' := TCIns_head hrel hRhead (by decide)
  have hDlast : D.getLast? = some '}' := by rw [TCIns_getLast hrel]; exact hRlast
  have hDne : D ≠ [] := by
    intro he
    rw [he] at hDhead
    cases hDhead
  have hstrip : pyStrip (pre ++ D ++ post) =
      pre.dropWhile isPySpace ++ D ++ (post.reverse.dropWhile isPySpace).reverse :=
    pyStrip_append_decomp pre _ post
      (fun c hc => by rw [hDhead] at hc; cases hc; decide)
      (fun c hc => by rw [hDlast] at hc; cases hc; decide)
      hDne
  have hpre2 : '{' ∉ pre.dropWhile isPySpace :=
    fun hm => hpre ((mem_dropWhile_iff (by decide) pre).mp hm)
  have hpost2 : '}' ∉ (post.reverse.dropWhile isPySpace).reverse := by
    intro hm
    rw [List.mem_reverse, mem_dropWhile_iff (by decide), List.mem_reverse] at hm
    exact hpost hm
  cases hse : startsEndsBrace (pre.dropWhile isPySpace ++ D ++
      (post.reverse.dropWhile isPySpace).reverse) with
  | true =>
    simp only [startsEndsBrace, Bool.and_eq_true, decide_eq_true_eq] at hse
    obtain ⟨hh, hl⟩ := hse
    have hpre0 : pre.dropWhile isPySpace = [] := by
      cases hp : pre.dropWhile isPySpace with
      | nil => rfl
      | cons c t2 =>
        rw [hp] at hh
        simp only [List.append_assoc, List.cons_append, List.head?_cons] at hh
        have hc := Option.some.inj hh
        exact absurd (by rw [hp, ← hc]; exact List.mem_cons_self c t2) hpre2
    have hpost0 : (post.reverse.dropWhile isPySpace).reverse = [] := by
      cases hp : (post.reverse.dropWhile isPySpace).reverse with
      | nil => rfl
      | cons c t2 =>
        rw [hp, List.getLast?_append_of_ne_nil _ (List.cons_ne_nil _ _)] at hl
        have hmem : '}' ∈ c :: t2 := List.mem_of_mem_getLast? hl
        exact absurd (by rw [hp]; exact hmem) hpost2
    have hfinal : pyStrip (pre ++ D ++ post) = D := by
      rw [hstrip, hpre0, hpost0]
      simp
    have hDstrip : pyStrip D = D :=
      pyStrip_eq_self
        (fun c hc => by rw [hDhead] at hc; cases hc; decide)
        (fun c hc => by rw [hDlast] at hc; cases hc; decide)
    rw [coerceJson_congr (hfinal.trans hDstrip.symm)]
    exact coerceJson_tcins_renderObj hrel hok
  | false =>
    obtain ⟨Dtail, hDeq⟩ : ∃ Dtail, D = '{' :: Dtail := by
      cases D with
      | nil => cases hDhead
      | cons c r =>
        rw [List.head?_cons] at hDhead
        exact ⟨r, by rw [Option.some.inj hDhead]⟩
    have hDtne : Dtail ≠ [] := by
      intro he
      rw [hDeq, he] at hDlast
      rw [List.getLast?_singleton] at hDlast
      exact absurd (Option.some.inj hDlast) (by decide)
    have hDtlast : Dtail.getLast? = some '}' := by
      rw [hDeq, show ('{' :: Dtail) = ['{'] ++ Dtail from rfl,
        List.getLast?_append_of_ne_nil _ hDtne] at hDlast
      exact hDlast
    have hsearch : searchBrace (pre.dropWhile isPySpace ++ D ++
        (post.reverse.dropWhile isPySpace).reverse) = some D := by
      rw [List.append_assoc, searchBrace_append_left _ _ hpre2, hDeq, List.cons_append]
      show (if '{' = '{' then
          match upToLastRB (Dtail ++ (post.reverse.dropWhile isPySpace).reverse) with
          | some u => some ('{' :: u)
          | none => searchBrace (Dtail ++ (post.reverse.dropWhile isPySpace).reverse)
        else searchBrace (Dtail ++ (post.reverse.dropWhile isPySpace).reverse)) =
        some ('{' :: Dtail)
      rw [if_pos rfl, upToLastRB_append,
        (upToLastRB_eq_none ((post.reverse.dropWhile isPySpace).reverse)).mpr hpost2]
      dsimp only
      rw [upToLastRB_of_last_rb Dtail hDtlast]
    unfold coerceJson
    rw [hstrip]
    show (match (if startsEndsBrace (pre.dropWhile isPySpace ++ D ++
        (post.reverse.dropWhile isPySpace).reverse) = true
        then some (pre.dropWhile isPySpace ++ D ++
          (post.reverse.dropWhile isPySpace).reverse)
        else searchBrace (pre.dropWhile isPySpace ++ D ++
          (post.reverse.dropWhile isPySpace).reverse)) with
      | none => (Except.error CoerceError.extraction : Except CoerceError JVal)
      | some cand =>
        match jsonLoads (cleanJsonStr cand) with
        | some v => Except.ok v
        | none => Except.error (CoerceError.parse (cleanJsonStr cand))) =
      Except.ok (JVal.jobj fs)
    rw [hse, if_neg (fun h => by cases h), hsearch]
    show (match jsonLoads (cleanJsonStr D) with
      | some v => (Except.ok v : Except CoerceError JVal)
      | none => Except.error (CoerceError.parse (cleanJsonStr D))) =
      Except.ok (JVal.jobj fs)
    rw [cleanJsonStr_tcins hrel hok,
      jsonLoads_renderV (show strsOKv (.jobj fs) = true from hok)]

theorem c1_witness :
    ('{' ∉ ("note ").data) ∧ ('}' ∉ (" done").data) ∧
    coerceJson (("note ").data ++ ("\x7b\"a\": 1,\x7d").data ++ (" done").data) =
      .ok (.jobj (.cons ['a'] (.jnum 1) .nil)) :=
  ⟨by decide, by decide,
    c1_embedded_object (("note ").data) ((" done").data) (("\x7b\"a\": 1,\x7d").data)
      (.cons ['a'] (.jnum 1) .nil)
      (.copy '{' _ _ (.copy '"' _ _ (.copy 'a' _ _ (.copy '"' _ _ (.copy ':' _ _
        (.copy ' ' _ _ (.copy '1' _ _
          (.ins [] '}' _ _ (by decide) (fun x hx => absurd hx (List.not_mem_nil x))
            (.copy '}' _ _ .nil)))))))))
      (by decide) (by decide) (by rfl)⟩

/-- C1 counterexample: `\x7b"a": 1\x7d` is a valid JSON object (coerced
successfully on its own), but embedded in commentary that itself contains
braces (`x\x7by ` before, ` z\x7dw` after) the greedy regex `\{.*\}`
extracts `\x7by \x7b"a": 1\x7d z\x7d`, which fails to parse: the result is
a parse error, not the embedded object. -/
theorem c1_counterexample :
    coerceJson (("\x7b\"a\": 1\x7d").data) =
      .ok (.jobj (.cons ['a'] (.jnum 1) .nil)) ∧
    coerceJson (("x\x7by ").data ++ ("\x7b\"a\": 1\x7d").data ++ (" z\x7dw").data) =
      .error (.parse (("\x7by \x7b\"a\": 1\x7d z\x7d").data)) :=
  ⟨by rfl, by rfl⟩
